import Mathlib

/-!
# Lumina: celestial alignment and tracking engine

A shallow embedding of the algorithmic core of `src/js/app.js`:

* the angular delta and the target-lock logic of `App.updateCompassUI`,
* the azimuth conversion of `App.updateTelemetry`,
* the progress and marker computation of `App.drawTrajectory`,
* the phase table of `App.getMoonPhaseName`.

## Number model

A JavaScript number is modelled by `JSNum`: a finite value carried as a
rational, the two infinities, or NaN.  Every arithmetic operation computes the
exact rational result and rounds it with `roundDouble`: to the nearest binary64
value, ties to the even significand, with gradual underflow below `2 ^ -1022`
and overflow to an infinity from `2 ^ 1024` on.  Comparisons are exact.
`Math.pow(x, 2)` is taken as the correctly rounded square.  Zero is unsigned;
the only zero divisor reachable in the modelled code is the result of a
subtraction of two equal finite values, which is `+0`.  An operand `fin q`
stands for a double when `q` is one; statements over all rationals hold in
particular for the doubles.

DOM writes and canvas drawing calls are not part of the model, except that the
calls to `engageLock` and `disengageLock` are recorded as effects and the
marker coordinates handed to `ctx.arc` are returned.
-/

namespace Lumina

/-! ## Rounding to binary64 -/

/-- Round to the nearest integer, ties to the even one. -/
def roundHalfEven (x : ℚ) : ℤ :=
  let f := ⌊x⌋
  if x - f < 1 / 2 then f
  else if 1 / 2 < x - f then f + 1
  else if f % 2 = 0 then f else f + 1

/-- The binary exponent used to round a magnitude: the floor of its base 2
logarithm, not below the least normal exponent -1022. -/
def binade (q : ℚ) : ℤ := max (Int.log 2 q) (-1022)

/-- The spacing of the doubles around a magnitude: 2 ^ (binade - 52). -/
def ulp (q : ℚ) : ℚ := (2 : ℚ) ^ (binade q - 52)

/-- A nonnegative rational rounded to the nearest multiple of its spacing. -/
def roundMag (q : ℚ) : ℚ := (roundHalfEven (q / ulp q) : ℚ) * ulp q

/-- A rational rounded to the nearest double, exponent range unbounded above. -/
def roundValue (q : ℚ) : ℚ := if q < 0 then -roundMag (-q) else roundMag q


/-! ## JavaScript numbers -/

/-- A JavaScript number: finite (a rational), an infinity, or NaN. -/
inductive JSNum where
  | nan : JSNum
  | negInf : JSNum
  | fin (q : ℚ) : JSNum
  | posInf : JSNum
  deriving DecidableEq

open JSNum

/-- The double nearest to an exact result: the rounded value when it is inside
the binary64 range, an infinity otherwise. -/
def roundDouble (q : ℚ) : JSNum :=
  if (2 : ℚ) ^ 1024 ≤ roundValue q then posInf
  else if roundValue q ≤ -(2 : ℚ) ^ 1024 then negInf
  else fin (roundValue q)

namespace JSNum

/-- Unary minus. -/
def neg : JSNum → JSNum
  | nan => nan
  | negInf => posInf
  | fin q => fin (-q)
  | posInf => negInf

/-- The operator `+`. -/
def add : JSNum → JSNum → JSNum
  | nan, _ => nan
  | _, nan => nan
  | posInf, negInf => nan
  | negInf, posInf => nan
  | posInf, _ => posInf
  | _, posInf => posInf
  | negInf, _ => negInf
  | _, negInf => negInf
  | fin x, fin y => roundDouble (x + y)

/-- The operator `-`. -/
def sub (a b : JSNum) : JSNum := add a (neg b)

/-- The infinity whose sign is the sign of the nonzero rational `s`. -/
def infOfSign (s : ℚ) : JSNum := if 0 < s then posInf else negInf

/-- The operator `*`. -/
def mul : JSNum → JSNum → JSNum
  | nan, _ => nan
  | _, nan => nan
  | fin x, fin y => roundDouble (x * y)
  | fin x, posInf => if x = 0 then nan else infOfSign x
  | fin x, negInf => if x = 0 then nan else infOfSign (-x)
  | posInf, fin y => if y = 0 then nan else infOfSign y
  | negInf, fin y => if y = 0 then nan else infOfSign (-y)
  | posInf, posInf => posInf
  | negInf, negInf => posInf
  | posInf, negInf => negInf
  | negInf, posInf => negInf

/-- The operator `/`.  A finite nonzero value over zero is an infinity of the
sign of the numerator, zero over zero is NaN; nothing is thrown. -/
def div : JSNum → JSNum → JSNum
  | nan, _ => nan
  | _, nan => nan
  | fin x, fin y =>
      if y = 0 then (if x = 0 then nan else infOfSign x) else roundDouble (x / y)
  | fin _, posInf => fin 0
  | fin _, negInf => fin 0
  | posInf, fin y => if 0 ≤ y then posInf else negInf
  | negInf, fin y => if 0 ≤ y then negInf else posInf
  | posInf, posInf => nan
  | posInf, negInf => nan
  | negInf, posInf => nan
  | negInf, negInf => nan

/-- The function `Math.abs`. -/
def abs : JSNum → JSNum
  | nan => nan
  | negInf => posInf
  | fin q => fin |q|
  | posInf => posInf

/-- The call `Math.pow(x, 2)`. -/
def pow2 : JSNum → JSNum
  | nan => nan
  | negInf => posInf
  | fin q => roundDouble (q ^ 2)
  | posInf => posInf

/-- The operator `<`; false as soon as an operand is NaN. -/
def lt : JSNum → JSNum → Bool
  | nan, _ => false
  | _, nan => false
  | negInf, negInf => false
  | negInf, _ => true
  | _, negInf => false
  | fin x, fin y => decide (x < y)
  | fin _, posInf => true
  | posInf, _ => false

/-- The operator `>`. -/
def gt (a b : JSNum) : Bool := lt b a

/-- The operator `>=`; false as soon as an operand is NaN. -/
def ge : JSNum → JSNum → Bool
  | nan, _ => false
  | _, nan => false
  | a, b => !(lt a b)

/-- The operator `==` on two numbers; NaN equals nothing. -/
def eq : JSNum → JSNum → Bool
  | nan, _ => false
  | _, nan => false
  | a, b => decide (a = b)

end JSNum

/-! ## `App.updateCompassUI`: angular delta and target lock -/

/-- The delta of `updateCompassUI` (lines 214-215):
`let delta = Math.abs(heading - moonAzimuth); if (delta > 180) delta = 360 - delta;` -/
def angularDelta (heading moonAzimuth : JSNum) : JSNum :=
  let delta := abs (sub heading moonAzimuth)
  if gt delta (fin 180) then sub (fin 360) delta else delta

/-- The side effects of the lock logic: a call of `engageLock` or of
`disengageLock`. -/
inductive Effect where
  | engage : Effect
  | disengage : Effect
  deriving DecidableEq, Repr

/-- The fields of `App` read or written by `updateCompassUI`. -/
structure AppState where
  heading : JSNum
  moonAzimuth : JSNum
  isLocked : Bool
  deriving DecidableEq

/-- The target lock logic of `updateCompassUI` (lines 220-230) for a computed
delta: the new value of `isLocked` and the effects fired, in order. -/
def lockStep (isLocked : Bool) (delta : JSNum) : Bool × List Effect :=
  if lt delta (fin 5) then
    if !isLocked then (true, [Effect.engage]) else (isLocked, [])
  else
    if isLocked then (false, [Effect.disengage]) else (isLocked, [])

/-- One tick of `updateCompassUI` (lines 212-231): the state after the tick and
the lock effects fired by it. -/
def updateCompassUI (s : AppState) : AppState × List Effect :=
  let delta := angularDelta s.heading s.moonAzimuth
  let r := lockStep s.isLocked delta
  ({ s with isLocked := r.1 }, r.2)

/-! ## `App.updateTelemetry`: azimuth conversion -/

/-- The constant `Math.PI`: the double nearest to pi, as an exact rational
(`3.141592653589793`, that is `884279719003555 / 2^48`). -/
def Math_PI : ℚ := 884279719003555 / 281474976710656

/-- The value stored in `moonAzimuth` by `updateTelemetry` (line 179):
`(moonPos.azimuth * 180 / Math.PI) + 180`. -/
def updateTelemetry_moonAzimuth (azimuth : JSNum) : JSNum :=
  add (div (mul azimuth (fin 180)) (fin Math_PI)) (fin 180)

/-! ## `App.drawTrajectory`: arc, progress and marker -/

/-- What `drawTrajectory` draws: the arc path (`moveTo` point, then the control
and end point of `quadraticCurveTo`) and, when it is drawn, the centre of the
marker dot passed to `ctx.arc`. -/
structure Trajectory where
  arcStart : JSNum × JSNum
  arcControl : JSNum × JSNum
  arcEnd : JSNum × JSNum
  marker : Option (JSNum × JSNum)
  deriving DecidableEq

/-- The time values a valid `Date` can hold: an integer number of milliseconds
of magnitude at most 8.64e15. -/
def isTimeValue (t : ℤ) : Prop := |t| ≤ 8640000000000000

/-- The progress of `drawTrajectory` (lines 282-288) for the time values, in
milliseconds, of `rise`, `set` and `now`:
`totalDuration = set - rise; elapsed = now - rise;`
`progress = elapsed / totalDuration`, then
`if (progress < 0) progress = 0; if (progress > 1) progress = 1;`. -/
def trajectoryProgress (rise set now : ℤ) : JSNum :=
  let totalDuration : JSNum := sub (fin (set : ℚ)) (fin (rise : ℚ))
  let elapsed : JSNum := sub (fin (now : ℚ)) (fin (rise : ℚ))
  let progress := div elapsed totalDuration
  let progress := if lt progress (fin 0) then fin 0 else progress
  let progress := if gt progress (fin 1) then fin 1 else progress
  progress

/-- The marker abscissa of `drawTrajectory` (line 294):
`(Math.pow(1 - t, 2) * 0) + (2 * (1 - t) * t * (width / 2)) + (Math.pow(t, 2) * width)`. -/
def markerX (width t : JSNum) : JSNum :=
  add (add (mul (pow2 (sub (fin 1) t)) (fin 0))
           (mul (mul (mul (fin 2) (sub (fin 1) t)) t) (div width (fin 2))))
      (mul (pow2 t) width)

/-- The marker ordinate of `drawTrajectory` (line 295):
`(Math.pow(1 - t, 2) * height) + (2 * (1 - t) * t * 20) + (Math.pow(t, 2) * height)`. -/
def markerY (height t : JSNum) : JSNum :=
  add (add (mul (pow2 (sub (fin 1) t)) height)
           (mul (mul (mul (fin 2) (sub (fin 1) t)) t) (fin 20)))
      (mul (pow2 t) height)

/-- The function `drawTrajectory` (lines 259-304) for the canvas size
(`clientWidth` and `clientHeight` are integers), the rise and set dates
returned by the provider (`none` when the field is absent) and the current
time.  The arc is always drawn; the marker only inside
`if (moonTimes.rise && moonTimes.set)`. -/
def drawTrajectory (width height : ℕ) (rise set : Option ℤ) (now : ℤ) :
    Trajectory :=
  { arcStart := (fin 0, fin (height : ℚ))
    arcControl := (div (fin (width : ℚ)) (fin 2), fin 20)
    arcEnd := (fin (width : ℚ), fin (height : ℚ))
    marker :=
      match rise, set with
      | some r, some s =>
          let t := trajectoryProgress r s now
          some (markerX (fin (width : ℚ)) t, markerY (fin (height : ℚ)) t)
      | _, _ => none }

/-! ## `App.getMoonPhaseName` -/

/-- The function `getMoonPhaseName` (lines 307-316). -/
def getMoonPhaseName (phase : JSNum) : String :=
  if eq phase (fin 0) then "New Moon"
  else if lt phase (fin (1/4)) then "Waxing Crescent"
  else if eq phase (fin (1/4)) then "First Quarter"
  else if lt phase (fin (1/2)) then "Waxing Gibbous"
  else if eq phase (fin (1/2)) then "Full Moon"
  else if lt phase (fin (3/4)) then "Waning Gibbous"
  else if eq phase (fin (3/4)) then "Last Quarter"
  else "Waning Crescent"

/-! ## Definitions following the specification's wording -/

/-- The shortest distance on the circle as the specification states it, in
exact arithmetic: `min(|a - b|, 360 - |a - b|)`. -/
def specShortestDistance (a b : ℚ) : ℚ := min |a - b| (360 - |a - b|)

/-- The quadratic Bezier curve of the specification, one coordinate, in exact
arithmetic: `q(t) = (1-t)^2 * P0 + 2(1-t)t * C + t^2 * P2`. -/
def specBezier (p0 c p2 t : ℚ) : ℚ :=
  (1 - t) ^ 2 * p0 + 2 * (1 - t) * t * c + t ^ 2 * p2

/-- The quadratic Bezier curve of the specification, one coordinate, evaluated
with JavaScript operations, left to right. -/
def specBezierJS (p0 c p2 t : JSNum) : JSNum :=
  add (add (mul (pow2 (sub (fin 1) t)) p0)
           (mul (mul (mul (fin 2) (sub (fin 1) t)) t) c))
      (mul (pow2 t) p2)

/-- The clamp of the specification: `clamp(x, 0, 1)`. -/
def specClamp01 (x : ℚ) : ℚ := max 0 (min x 1)

/-! ## Rounding: order, symmetry, exactness, accuracy -/

theorem floor_le_roundHalfEven (x : ℚ) : ⌊x⌋ ≤ roundHalfEven x := by
  unfold roundHalfEven
  simp only
  split_ifs <;> omega

theorem roundHalfEven_le_floor_succ (x : ℚ) : roundHalfEven x ≤ ⌊x⌋ + 1 := by
  unfold roundHalfEven
  simp only
  split_ifs <;> omega

theorem le_roundHalfEven (x : ℚ) (k : ℤ) (h : (k : ℚ) ≤ x) : k ≤ roundHalfEven x :=
  le_trans (Int.le_floor.mpr h) (floor_le_roundHalfEven x)

theorem roundHalfEven_le (x : ℚ) (k : ℤ) (h : x ≤ (k : ℚ)) : roundHalfEven x ≤ k := by
  rcases eq_or_lt_of_le h with e | l
  · subst e
    unfold roundHalfEven
    simp
  · have : ⌊x⌋ < k := Int.floor_lt.mpr l
    have := roundHalfEven_le_floor_succ x
    omega

theorem roundHalfEven_intCast (k : ℤ) : roundHalfEven (k : ℚ) = k :=
  le_antisymm (roundHalfEven_le _ _ le_rfl) (le_roundHalfEven _ _ le_rfl)

theorem roundHalfEven_mono {x y : ℚ} (h : x ≤ y) : roundHalfEven x ≤ roundHalfEven y := by
  have hf : ⌊x⌋ ≤ ⌊y⌋ := Int.floor_mono h
  rcases eq_or_lt_of_le hf with e | l
  · unfold roundHalfEven
    simp only
    rw [← e]
    split_ifs <;> first | omega | (exfalso; linarith)
  · calc roundHalfEven x ≤ ⌊x⌋ + 1 := roundHalfEven_le_floor_succ x
      _ ≤ ⌊y⌋ := l
      _ ≤ roundHalfEven y := floor_le_roundHalfEven y

theorem abs_roundHalfEven_sub_le (x : ℚ) : |(roundHalfEven x : ℚ) - x| ≤ 1 / 2 := by
  have h1 := Int.floor_le x
  have h2 := Int.lt_floor_add_one x
  unfold roundHalfEven
  simp only
  rw [abs_le]
  split_ifs with a b c <;> push_cast <;> constructor <;> linarith

theorem roundHalfEven_eq_of_abs_lt (x : ℚ) (m : ℤ) (h : |x - m| < 1 / 2) :
    roundHalfEven x = m := by
  have h1 := abs_roundHalfEven_sub_le x
  rw [abs_lt] at h
  rw [abs_le] at h1
  have a : ((roundHalfEven x - m : ℤ) : ℚ) < 1 := by push_cast; linarith
  have b : (-1 : ℚ) < ((roundHalfEven x - m : ℤ) : ℚ) := by push_cast; linarith
  have a' : roundHalfEven x - m < 1 := by exact_mod_cast a
  have b' : -1 < roundHalfEven x - m := by exact_mod_cast b
  omega


theorem roundHalfEven_eq_of_tie (x : ℚ) (m : ℤ) (hm : m % 2 = 0)
    (h : |x - m| ≤ 1 / 2) : roundHalfEven x = m := by
  rcases lt_or_eq_of_le h with h1 | h1
  · exact roundHalfEven_eq_of_abs_lt x m h1
  · have h2 : x - m = 1 / 2 ∨ x - m = -(1 / 2) := by
      rcases abs_choice (x - m) with e | e <;> rw [e] at h1
      · exact Or.inl h1
      · exact Or.inr (by linarith)
    rcases h2 with e | e
    · have hf : ⌊x⌋ = m := by
        rw [Int.floor_eq_iff]
        constructor <;> linarith
      unfold roundHalfEven
      simp only [hf]
      rw [if_neg (by linarith), if_neg (by linarith), if_pos hm]
    · have hf : ⌊x⌋ = m - 1 := by
        rw [Int.floor_eq_iff]
        push_cast
        constructor <;> linarith
      unfold roundHalfEven
      simp only [hf]
      push_cast
      rw [if_neg (by linarith), if_neg (by linarith), if_neg (by omega)]
      ring

theorem ulp_pos (q : ℚ) : 0 < ulp q := by
  unfold ulp; positivity

theorem two_zpow_mul (a b : ℤ) : (2 : ℚ) ^ a * (2 : ℚ) ^ b = (2 : ℚ) ^ (a + b) :=
  (zpow_add₀ (two_ne_zero) a b).symm

theorem two_zpow_mono {a b : ℤ} (h : a ≤ b) : (2 : ℚ) ^ a ≤ (2 : ℚ) ^ b :=
  zpow_le_zpow_right₀ (by norm_num) h

theorem binade_ge (q : ℚ) : -1022 ≤ binade q := le_max_right _ _

theorem log_le_binade (q : ℚ) : Int.log 2 q ≤ binade q := le_max_left _ _

theorem lt_two_zpow_binade_succ (q : ℚ) : q < (2 : ℚ) ^ (binade q + 1) := by
  have h := Int.lt_zpow_succ_log_self (b := 2) (by norm_num) q
  have h2 : (2 : ℚ) ^ (Int.log 2 q + 1) ≤ (2 : ℚ) ^ (binade q + 1) :=
    two_zpow_mono (by have := log_le_binade q; omega)
  exact lt_of_lt_of_le (by exact_mod_cast h) h2

theorem binade_mono {x y : ℚ} (hx : 0 < x) (h : x ≤ y) : binade x ≤ binade y := by
  unfold binade
  exact max_le_max (Int.log_mono_right hx h) le_rfl

theorem roundMag_zero : roundMag 0 = 0 := by
  simp [roundMag, roundHalfEven]

theorem roundMag_nonneg {q : ℚ} (h : 0 ≤ q) : 0 ≤ roundMag q := by
  unfold roundMag
  have hu := ulp_pos q
  have : (0 : ℤ) ≤ roundHalfEven (q / ulp q) :=
    le_roundHalfEven _ 0 (by simpa using div_nonneg h hu.le)
  have : (0 : ℚ) ≤ (roundHalfEven (q / ulp q) : ℚ) := by exact_mod_cast this
  positivity

/-- A rounded magnitude does not exceed the next power of two. -/
theorem roundMag_le_two_zpow (q : ℚ) : roundMag q ≤ (2 : ℚ) ^ (binade q + 1) := by
  unfold roundMag
  have hu := ulp_pos q
  have h1 : q / ulp q ≤ ((2 ^ 53 : ℤ) : ℚ) := by
    rw [div_le_iff₀ hu]
    have := lt_two_zpow_binade_succ q
    have e : ((2 ^ 53 : ℤ) : ℚ) * ulp q = (2 : ℚ) ^ (binade q + 1) := by
      unfold ulp
      have : ((2 ^ 53 : ℤ) : ℚ) = (2 : ℚ) ^ (53 : ℤ) := by norm_num
      rw [this, two_zpow_mul]
      congr 1; ring
    rw [e]; exact this.le
  have h2 : roundHalfEven (q / ulp q) ≤ 2 ^ 53 := roundHalfEven_le _ _ h1
  have h3 : (roundHalfEven (q / ulp q) : ℚ) ≤ ((2 ^ 53 : ℤ) : ℚ) := by exact_mod_cast h2
  calc (roundHalfEven (q / ulp q) : ℚ) * ulp q
      ≤ ((2 ^ 53 : ℤ) : ℚ) * ulp q := mul_le_mul_of_nonneg_right h3 hu.le
    _ = (2 : ℚ) ^ (binade q + 1) := by
      unfold ulp
      have : ((2 ^ 53 : ℤ) : ℚ) = (2 : ℚ) ^ (53 : ℤ) := by norm_num
      rw [this, two_zpow_mul]
      congr 1; ring

/-- A rounded magnitude is at least any power of two, of normal exponent, below
the magnitude. -/
theorem two_zpow_le_roundMag (q : ℚ) (h : (2 : ℚ) ^ binade q ≤ q) :
    (2 : ℚ) ^ binade q ≤ roundMag q := by
  unfold roundMag
  have hu := ulp_pos q
  have e : ((2 ^ 52 : ℤ) : ℚ) * ulp q = (2 : ℚ) ^ binade q := by
    unfold ulp
    have : ((2 ^ 52 : ℤ) : ℚ) = (2 : ℚ) ^ (52 : ℤ) := by norm_num
    rw [this, two_zpow_mul]
    congr 1; ring
  have h1 : ((2 ^ 52 : ℤ) : ℚ) ≤ q / ulp q := by
    rw [le_div_iff₀ hu, e]; exact h
  have h2 : 2 ^ 52 ≤ roundHalfEven (q / ulp q) := le_roundHalfEven _ _ h1
  have h3 : ((2 ^ 52 : ℤ) : ℚ) ≤ (roundHalfEven (q / ulp q) : ℚ) := by exact_mod_cast h2
  calc (2 : ℚ) ^ binade q = ((2 ^ 52 : ℤ) : ℚ) * ulp q := e.symm
    _ ≤ _ := mul_le_mul_of_nonneg_right h3 hu.le

theorem roundMag_mono {x y : ℚ} (hx : 0 ≤ x) (h : x ≤ y) : roundMag x ≤ roundMag y := by
  rcases eq_or_lt_of_le hx with e | hx'
  · subst e
    rw [roundMag_zero]
    exact roundMag_nonneg h
  have hb := binade_mono hx' h
  rcases eq_or_lt_of_le hb with e | l
  · unfold roundMag ulp
    rw [e]
    have hu : (0 : ℚ) < (2 : ℚ) ^ (binade y - 52) := by positivity
    have := roundHalfEven_mono (div_le_div_of_nonneg_right h hu.le)
    exact mul_le_mul_of_nonneg_right (by exact_mod_cast this) hu.le
  · have hy : 0 < y := lt_of_lt_of_le hx' h
    have hlog : binade y = Int.log 2 y := by
      unfold binade
      apply max_eq_left
      have := binade_ge x
      have h2 : binade y = max (Int.log 2 y) (-1022) := rfl
      by_contra hc
      rw [max_eq_right (by omega)] at h2
      omega
    have h1 : (2 : ℚ) ^ binade y ≤ y := by
      rw [hlog]
      exact_mod_cast Int.zpow_log_le_self (b := 2) (by norm_num) hy
    calc roundMag x ≤ (2 : ℚ) ^ (binade x + 1) := roundMag_le_two_zpow x
      _ ≤ (2 : ℚ) ^ binade y := two_zpow_mono (by omega)
      _ ≤ roundMag y := two_zpow_le_roundMag y h1

theorem roundValue_zero : roundValue 0 = 0 := by
  simp [roundValue, roundMag_zero]

theorem roundValue_neg (q : ℚ) : roundValue (-q) = -roundValue q := by
  unfold roundValue
  rcases lt_trichotomy q 0 with h | h | h
  · have : ¬ (-q < 0) := by linarith
    simp [h, this]
  · subst h; simp [roundMag_zero]
  · have : ¬ (q < 0) := by linarith
    have h2 : -q < 0 := by linarith
    simp [h2, this]

theorem roundValue_of_nonneg {q : ℚ} (h : 0 ≤ q) : roundValue q = roundMag q := by
  unfold roundValue
  rw [if_neg (not_lt.mpr h)]

theorem roundValue_nonneg {q : ℚ} (h : 0 ≤ q) : 0 ≤ roundValue q := by
  rw [roundValue_of_nonneg h]; exact roundMag_nonneg h

theorem roundValue_nonpos {q : ℚ} (h : q ≤ 0) : roundValue q ≤ 0 := by
  have := roundValue_nonneg (q := -q) (by linarith)
  rw [roundValue_neg] at this
  linarith

theorem roundValue_mono {x y : ℚ} (h : x ≤ y) : roundValue x ≤ roundValue y := by
  rcases le_or_lt 0 x with hx | hx
  · rw [roundValue_of_nonneg hx, roundValue_of_nonneg (le_trans hx h)]
    exact roundMag_mono hx h
  · rcases le_or_lt 0 y with hy | hy
    · exact le_trans (roundValue_nonpos hx.le) (roundValue_nonneg hy)
    · have := roundMag_mono (x := -y) (y := -x) (by linarith) (by linarith)
      unfold roundValue
      rw [if_pos hx, if_pos hy]
      linarith


theorem binade_le_of_lt {q : ℚ} {E : ℤ} (hq : 0 < q) (hE : -1022 ≤ E)
    (h : q < (2 : ℚ) ^ (E + 1)) : binade q ≤ E := by
  unfold binade
  apply max_le _ hE
  have := (Int.lt_zpow_iff_log_lt (b := 2) (by norm_num) hq).mp (by exact_mod_cast h)
  omega

theorem binade_eq_of_mem {q : ℚ} {e : ℤ} (he : -1022 ≤ e) (hlo : (2 : ℚ) ^ e ≤ q)
    (hhi : q < (2 : ℚ) ^ (e + 1)) : binade q = e := by
  have hq : 0 < q := lt_of_lt_of_le (by positivity) hlo
  apply le_antisymm (binade_le_of_lt hq he hhi)
  have := (Int.zpow_le_iff_le_log (b := 2) (by norm_num) hq).mp (by exact_mod_cast hlo)
  exact le_trans this (log_le_binade q)

/-- A magnitude n * 2 ^ k with n < 2 ^ 53 and k >= -1074 is not changed by
rounding. -/
theorem roundMag_eq_self (n : ℕ) (k : ℤ) (hn : n < 2 ^ 53) (hk : -1074 ≤ k) :
    roundMag ((n : ℚ) * (2 : ℚ) ^ k) = (n : ℚ) * (2 : ℚ) ^ k := by
  rcases Nat.eq_zero_or_pos n with h0 | hpos
  · subst h0; simp [roundMag_zero]
  set q : ℚ := (n : ℚ) * (2 : ℚ) ^ k with hq
  have hk2 : (0 : ℚ) < (2 : ℚ) ^ k := by positivity
  have hqpos : 0 < q := by
    have : (0 : ℚ) < n := by exact_mod_cast hpos
    positivity
  have hlt : q < (2 : ℚ) ^ (k + 52 + 1) := by
    have h1 : (n : ℚ) < (2 : ℚ) ^ (53 : ℤ) := by
      have h' : (n : ℚ) < ((2 ^ 53 : ℕ) : ℚ) := by exact_mod_cast hn
      have e' : ((2 ^ 53 : ℕ) : ℚ) = (2 : ℚ) ^ (53 : ℤ) := by norm_num
      rw [e'] at h'
      exact h'
    calc q = (n : ℚ) * (2 : ℚ) ^ k := rfl
      _ < (2 : ℚ) ^ (53 : ℤ) * (2 : ℚ) ^ k := mul_lt_mul_of_pos_right h1 hk2
      _ = (2 : ℚ) ^ (k + 52 + 1) := by rw [two_zpow_mul]; congr 1; ring
  have he : binade q ≤ k + 52 := binade_le_of_lt hqpos (by omega) hlt
  obtain ⟨j, hj⟩ : ∃ j : ℕ, (j : ℤ) = k - binade q + 52 :=
    ⟨(k - binade q + 52).toNat, Int.toNat_of_nonneg (by omega)⟩
  have hdiv : q / ulp q = (((n : ℤ) * 2 ^ j : ℤ) : ℚ) := by
    unfold ulp
    rw [div_eq_iff (by positivity)]
    push_cast
    rw [hq, mul_assoc]
    congr 1
    rw [← zpow_natCast, hj, two_zpow_mul]
    congr 1; ring
  unfold roundMag
  rw [hdiv, roundHalfEven_intCast, ← hdiv]
  exact div_mul_cancel₀ _ (ne_of_gt (ulp_pos q))

/-- A rounding certificate: a magnitude in the binade of exponent e whose
quotient by the spacing is nearer to the integer m than to any other rounds to
m * 2 ^ (e - 52). -/
theorem roundMag_eq_of_near (q : ℚ) (e m : ℤ) (he : -1022 ≤ e)
    (hlo : (2 : ℚ) ^ e ≤ q) (hhi : q < (2 : ℚ) ^ (e + 1))
    (hm : |q / (2 : ℚ) ^ (e - 52) - m| < 1 / 2) :
    roundMag q = (m : ℚ) * (2 : ℚ) ^ (e - 52) := by
  unfold roundMag ulp
  rw [binade_eq_of_mem he hlo hhi, roundHalfEven_eq_of_abs_lt _ m hm]

/-- The rounding error of a magnitude below 2 ^ (E + 1) is at most half the
spacing 2 ^ (E - 52). -/
theorem abs_roundMag_sub_le {q : ℚ} {E : ℤ} (hq : 0 ≤ q) (hE : -1022 ≤ E)
    (h : q < (2 : ℚ) ^ (E + 1)) : |roundMag q - q| ≤ (2 : ℚ) ^ (E - 53) := by
  rcases eq_or_lt_of_le hq with e0 | hpos
  · subst e0; rw [roundMag_zero]; simp; positivity
  have hb := binade_le_of_lt hpos hE h
  have hu := ulp_pos q
  have h1 := abs_roundHalfEven_sub_le (q / ulp q)
  have h2 : roundMag q - q = ((roundHalfEven (q / ulp q) : ℚ) - q / ulp q) * ulp q := by
    unfold roundMag
    field_simp
  rw [h2, abs_mul, abs_of_pos hu]
  calc |(roundHalfEven (q / ulp q) : ℚ) - q / ulp q| * ulp q
      ≤ 1 / 2 * ulp q := mul_le_mul_of_nonneg_right h1 hu.le
    _ = (2 : ℚ) ^ (binade q - 53) := by
      unfold ulp
      have : (1 / 2 : ℚ) = (2 : ℚ) ^ (-1 : ℤ) := by norm_num
      rw [this, two_zpow_mul]; congr 1; ring
    _ ≤ (2 : ℚ) ^ (E - 53) := two_zpow_mono (by omega)

theorem abs_roundValue_sub_le {q : ℚ} {E : ℤ} (hE : -1022 ≤ E)
    (h : |q| < (2 : ℚ) ^ (E + 1)) : |roundValue q - q| ≤ (2 : ℚ) ^ (E - 53) := by
  rcases le_or_lt 0 q with hq | hq
  · rw [roundValue_of_nonneg hq]
    rw [abs_of_nonneg hq] at h
    exact abs_roundMag_sub_le hq hE h
  · have hq2 : 0 ≤ -q := by linarith
    rw [abs_of_neg hq] at h
    have := abs_roundMag_sub_le hq2 hE h
    unfold roundValue
    rw [if_pos hq]
    rw [show -roundMag (-q) - q = -(roundMag (-q) - -q) by ring, abs_neg]
    exact this

theorem roundValue_eq_self (n k : ℤ) (hn : |n| < 2 ^ 53) (hk : -1074 ≤ k) :
    roundValue ((n : ℚ) * (2 : ℚ) ^ k) = (n : ℚ) * (2 : ℚ) ^ k := by
  have hk2 : (0 : ℚ) < (2 : ℚ) ^ k := by positivity
  rcases le_or_lt 0 n with h0 | h0
  · obtain ⟨a, rfl⟩ := Int.eq_ofNat_of_zero_le h0
    have ha : a < 2 ^ 53 := by
      rw [abs_of_nonneg h0] at hn
      exact_mod_cast hn
    have hq : (0 : ℚ) ≤ ((a : ℤ) : ℚ) * (2 : ℚ) ^ k := by positivity
    rw [roundValue_of_nonneg hq]
    simpa using roundMag_eq_self a k ha hk
  · obtain ⟨a, ha⟩ := Int.eq_ofNat_of_zero_le (show 0 ≤ -n by omega)
    have ha2 : a < 2 ^ 53 := by
      rw [abs_of_neg h0, ha] at hn
      exact_mod_cast hn
    have e : (n : ℚ) = -(a : ℚ) := by
      have : ((-n : ℤ) : ℚ) = ((a : ℤ) : ℚ) := by rw [ha]
      push_cast at this
      linarith
    rw [e, neg_mul, roundValue_neg]
    have hq : (0 : ℚ) ≤ (a : ℚ) * (2 : ℚ) ^ k := by positivity
    rw [roundValue_of_nonneg hq, roundMag_eq_self a k ha2 hk]

theorem roundValue_intCast (n : ℤ) (hn : |n| < 2 ^ 53) : roundValue (n : ℚ) = n := by
  simpa using roundValue_eq_self n 0 hn (by norm_num)

/-- Rounding keeps a value inside a symmetric range whose bound is a double. -/
theorem abs_roundValue_le {q B : ℚ} (hB : roundValue B = B) (h : |q| ≤ B) :
    |roundValue q| ≤ B := by
  rw [abs_le] at h ⊢
  constructor
  · have := roundValue_mono h.1
    rw [roundValue_neg, hB] at this
    exact this
  · have := roundValue_mono h.2
    rw [hB] at this
    exact this


/-! ## Evaluation lemmas for finite operands -/

theorem roundDouble_eq_fin {q : ℚ} (h : |roundValue q| < (2 : ℚ) ^ 1024) :
    roundDouble q = fin (roundValue q) := by
  rw [abs_lt] at h
  unfold roundDouble
  rw [if_neg (not_le.mpr h.2), if_neg (not_le.mpr h.1)]

theorem roundDouble_cases (q : ℚ) :
    roundDouble q = posInf ∨ roundDouble q = negInf ∨
      roundDouble q = fin (roundValue q) := by
  unfold roundDouble
  split_ifs <;> simp

theorem roundDouble_ne_nan (q : ℚ) : roundDouble q ≠ nan := by
  rcases roundDouble_cases q with h | h | h <;> rw [h] <;> simp

/-- An exact result inside a symmetric range whose bound is a double rounds to
a finite value. -/
theorem roundDouble_of_abs_le {q B : ℚ} (hB : roundValue B = B)
    (hB2 : B < (2 : ℚ) ^ 1024) (h : |q| ≤ B) :
    roundDouble q = fin (roundValue q) :=
  roundDouble_eq_fin (lt_of_le_of_lt (abs_roundValue_le hB h) hB2)

theorem roundDouble_intCast (n : ℤ) (hn : |n| < 2 ^ 53) :
    roundDouble (n : ℚ) = fin (n : ℚ) := by
  have h := roundValue_intCast n hn
  have h2 : |(n : ℚ)| < (2 : ℚ) ^ 1024 := by
    have : ((|n| : ℤ) : ℚ) < ((2 ^ 53 : ℤ) : ℚ) := by exact_mod_cast hn
    rw [Int.cast_abs] at this
    refine lt_trans this ?_
    norm_num
  rw [roundDouble_eq_fin (by rw [h]; exact h2), h]

theorem roundDouble_zero : roundDouble 0 = fin 0 := by
  simpa using roundDouble_intCast 0 (by norm_num)

/-- A rounding certificate for a positive exact result: in the binade of
exponent e, with quotient by the spacing nearest to the integer m, the result
rounds to the finite value m * 2 ^ (e - 52). -/
theorem roundDouble_eq_of_near (q v : ℚ) (e m : ℤ) (he : -1022 ≤ e) (he2 : e ≤ 1022)
    (hlo : (2 : ℚ) ^ e ≤ q) (hhi : q < (2 : ℚ) ^ (e + 1))
    (hm : |q / (2 : ℚ) ^ (e - 52) - m| < 1 / 2)
    (hv : v = (m : ℚ) * (2 : ℚ) ^ (e - 52)) : roundDouble q = fin v := by
  have hq : 0 < q := lt_of_lt_of_le (by positivity) hlo
  have h1 : roundValue q = v := by
    rw [roundValue_of_nonneg hq.le, roundMag_eq_of_near q e m he hlo hhi hm, hv]
  have h2 : roundValue q ≤ (2 : ℚ) ^ (e + 1) := by
    rw [roundValue_of_nonneg hq.le]
    have := roundMag_le_two_zpow q
    rwa [binade_eq_of_mem he hlo hhi] at this
  have h3 : (2 : ℚ) ^ (e + 1) ≤ (2 : ℚ) ^ (1023 : ℤ) := two_zpow_mono (by omega)
  have h4 : (2 : ℚ) ^ (1023 : ℤ) < (2 : ℚ) ^ 1024 := by norm_num
  have h5 := roundValue_nonneg hq.le
  rw [roundDouble_eq_fin (by rw [abs_of_nonneg h5]; linarith), h1]

/-- A rounding certificate for a positive exact result that lies half way
between two doubles: it rounds to the one with the even significand m. -/
theorem roundDouble_eq_of_tie (q v : ℚ) (e m : ℤ) (he : -1022 ≤ e) (he2 : e ≤ 1022)
    (hlo : (2 : ℚ) ^ e ≤ q) (hhi : q < (2 : ℚ) ^ (e + 1))
    (hm : |q / (2 : ℚ) ^ (e - 52) - m| ≤ 1 / 2) (heven : m % 2 = 0)
    (hv : v = (m : ℚ) * (2 : ℚ) ^ (e - 52)) : roundDouble q = fin v := by
  have hq : 0 < q := lt_of_lt_of_le (by positivity) hlo
  have hb := binade_eq_of_mem he hlo hhi
  have h1 : roundValue q = v := by
    rw [roundValue_of_nonneg hq.le, hv]
    unfold roundMag ulp
    rw [hb, roundHalfEven_eq_of_tie _ m heven hm]
  have h2 : roundValue q ≤ (2 : ℚ) ^ (e + 1) := by
    rw [roundValue_of_nonneg hq.le]
    have := roundMag_le_two_zpow q
    rwa [hb] at this
  have h3 : (2 : ℚ) ^ (e + 1) ≤ (2 : ℚ) ^ (1023 : ℤ) := two_zpow_mono (by omega)
  have h4 : (2 : ℚ) ^ (1023 : ℤ) < (2 : ℚ) ^ 1024 := by norm_num
  have h5 := roundValue_nonneg hq.le
  rw [roundDouble_eq_fin (by rw [abs_of_nonneg h5]; linarith), h1]

@[simp] theorem add_fin (x y : ℚ) : add (fin x) (fin y) = roundDouble (x + y) := rfl

@[simp] theorem sub_fin (x y : ℚ) : sub (fin x) (fin y) = roundDouble (x - y) := by
  simp [sub, neg, add, sub_eq_add_neg]

@[simp] theorem mul_fin (x y : ℚ) : mul (fin x) (fin y) = roundDouble (x * y) := rfl

@[simp] theorem abs_fin (x : ℚ) : abs (fin x) = fin |x| := rfl

@[simp] theorem pow2_fin (x : ℚ) : pow2 (fin x) = roundDouble (x ^ 2) := rfl

@[simp] theorem lt_fin (x y : ℚ) : lt (fin x) (fin y) = decide (x < y) := rfl

@[simp] theorem gt_fin (x y : ℚ) : gt (fin x) (fin y) = decide (y < x) := rfl

@[simp] theorem eq_fin (x y : ℚ) : eq (fin x) (fin y) = decide (x = y) := by
  simp [eq]

theorem div_fin (x y : ℚ) (hy : y ≠ 0) :
    div (fin x) (fin y) = roundDouble (x / y) := by
  simp [div, hy]

theorem div_fin_zero_of_pos (x : ℚ) (hx : 0 < x) : div (fin x) (fin 0) = posInf := by
  simp [div, infOfSign, ne_of_gt hx, hx]

theorem div_fin_zero_of_neg (x : ℚ) (hx : x < 0) : div (fin x) (fin 0) = negInf := by
  simp [div, infOfSign, ne_of_lt hx, not_lt.mpr hx.le]

@[simp] theorem div_zero_zero : div (fin 0) (fin 0) = nan := by
  simp [div]

@[simp] theorem lt_nan_left (a : JSNum) : lt nan a = false := by
  cases a <;> rfl

@[simp] theorem sub_nan_left (a : JSNum) : sub nan a = nan := by
  cases a <;> rfl

@[simp] theorem sub_nan_right (a : JSNum) : sub a nan = nan := by
  cases a <;> rfl

@[simp] theorem abs_nan : JSNum.abs nan = nan := rfl

@[simp] theorem lt_nan_right (a : JSNum) : lt a nan = false := by
  cases a <;> rfl

@[simp] theorem lt_posInf_left (a : JSNum) : lt posInf a = false := by
  cases a <;> rfl

@[simp] theorem lt_negInf_fin (y : ℚ) : lt negInf (fin y) = true := rfl

@[simp] theorem lt_fin_posInf (x : ℚ) : lt (fin x) posInf = true := rfl

@[simp] theorem lt_fin_negInf (x : ℚ) : lt (fin x) negInf = false := rfl


/-- Rounding keeps a value inside the symmetric range of a rounded bound. -/
theorem abs_roundValue_le_roundValue {q B : ℚ} (h : |q| ≤ B) :
    |roundValue q| ≤ roundValue B := by
  rw [abs_le] at h ⊢
  constructor
  · have := roundValue_mono h.1
    rw [roundValue_neg] at this
    exact this
  · exact roundValue_mono h.2

/-- A rounding certificate for a positive exact result, on the rounded value. -/
theorem roundValue_eq_of_near (q v : ℚ) (e m : ℤ) (he : -1022 ≤ e)
    (hlo : (2 : ℚ) ^ e ≤ q) (hhi : q < (2 : ℚ) ^ (e + 1))
    (hm : |q / (2 : ℚ) ^ (e - 52) - m| < 1 / 2)
    (hv : v = (m : ℚ) * (2 : ℚ) ^ (e - 52)) : roundValue q = v := by
  have hq : 0 < q := lt_of_lt_of_le (by positivity) hlo
  rw [roundValue_of_nonneg hq.le, roundMag_eq_of_near q e m he hlo hhi hm, hv]

/-- A dyadic value n / 2 ^ k with |n| < 2 ^ 53 is a double: rounding returns
it. -/
theorem roundValue_exact (q : ℚ) (n : ℤ) (k : ℕ) (hn : |n| < 2 ^ 53) (hk : k ≤ 1074)
    (h : q * 2 ^ k = n) : roundValue q = q := by
  have e : q = (n : ℚ) * (2 : ℚ) ^ (-(k : ℤ)) := by
    rw [zpow_neg, zpow_natCast, ← h]
    field_simp
  have := roundValue_eq_self n (-(k : ℤ)) hn (by omega)
  rw [← e] at this
  exact this

theorem roundDouble_exact (q : ℚ) (n : ℤ) (k : ℕ) (hn : |n| < 2 ^ 53) (hk : k ≤ 1074)
    (h : q * 2 ^ k = n) : roundDouble q = fin q := by
  have h1 := roundValue_exact q n k hn hk h
  have h2 : |q| < (2 : ℚ) ^ 1024 := by
    have hk2 : (1 : ℚ) ≤ 2 ^ k := one_le_pow₀ (by norm_num)
    have h3 : |q| ≤ |q| * 2 ^ k := le_mul_of_one_le_right (abs_nonneg _) hk2
    have h4 : |q| * 2 ^ k = |(n : ℚ)| := by
      rw [← h, abs_mul, abs_of_pos (show (0 : ℚ) < 2 ^ k by positivity)]
    have h5 : |(n : ℚ)| < ((2 ^ 53 : ℤ) : ℚ) := by
      rw [← Int.cast_abs]; exact_mod_cast hn
    have h6 : ((2 ^ 53 : ℤ) : ℚ) < (2 : ℚ) ^ 1024 := by norm_num
    linarith
  rw [roundDouble_eq_fin (by rw [h1]; exact h2), h1]

/-! ## The angular delta -/

/-- The delta of two whole numbers of degrees is computed without rounding. -/
theorem angularDelta_intCast (m n : ℤ) (hm : |m| < 2 ^ 52) (hn : |n| < 2 ^ 52) :
    angularDelta (fin (m : ℚ)) (fin (n : ℚ))
      = fin (((if 180 < |m - n| then 360 - |m - n| else |m - n| : ℤ)) : ℚ) := by
  have hmn : |m - n| < 2 ^ 53 := by
    have := abs_sub m n
    omega
  have e1 : roundDouble ((m : ℚ) - (n : ℚ)) = fin (((m - n : ℤ)) : ℚ) := by
    rw [← Int.cast_sub]
    exact roundDouble_intCast _ hmn
  unfold angularDelta
  simp only [sub_fin, e1, abs_fin, gt_fin]
  have e2 : |(((m - n : ℤ)) : ℚ)| = ((|m - n| : ℤ) : ℚ) := by rw [Int.cast_abs]
  rw [e2]
  by_cases h : 180 < |m - n|
  · have h2 : (180 : ℚ) < ((|m - n| : ℤ) : ℚ) := by exact_mod_cast h
    simp only [h2, decide_True, if_true, h, sub_fin]
    have e3 : (360 : ℚ) - ((|m - n| : ℤ) : ℚ) = ((360 - |m - n| : ℤ) : ℚ) := by
      push_cast; ring
    rw [e3]
    apply roundDouble_intCast
    have := abs_nonneg (m - n)
    rw [abs_lt]
    constructor <;> omega
  · have h2 : ¬ (180 : ℚ) < ((|m - n| : ℤ) : ℚ) := by
      intro hc
      exact h (by exact_mod_cast hc)
    simp only [h2, decide_False, Bool.false_eq_true, if_false, h]

/-- The delta of two finite operands is never NaN. -/
theorem angularDelta_fin_ne_nan (h a : ℚ) : angularDelta (fin h) (fin a) ≠ nan := by
  unfold angularDelta
  simp only [sub_fin]
  rcases roundDouble_cases (h - a) with e | e | e <;> rw [e]
  · simp [JSNum.abs, gt, lt, sub, neg, add]
  · simp [JSNum.abs, gt, lt, sub, neg, add]
  · simp only [abs_fin, gt_fin]
    split_ifs
    · rw [sub_fin]; exact roundDouble_ne_nan _
    · simp

/-- The lock logic on a delta that is not NaN, case by case on `delta < 5`. -/
theorem lockStep_of_ne_nan (b : Bool) (d : JSNum) (hd : d ≠ nan) :
    ge d (fin 5) = !(lt d (fin 5)) ∧
    lockStep b d
      = if lt d (fin 5) = true then (if b then (true, []) else (true, [Effect.engage]))
        else (if b then (false, [Effect.disengage]) else (false, [])) := by
  constructor
  · cases d <;> simp_all [ge]
  · unfold lockStep
    cases b <;> cases h : lt d (fin 5) <;> simp

/-- The delta of two finite operands whose difference is below 360 in
magnitude: both roundings stay finite. -/
theorem angularDelta_fin_of_abs_le (a b : ℚ) (h : |a - b| ≤ 360) :
    |roundValue (a - b)| ≤ 360 ∧
    angularDelta (fin a) (fin b)
      = fin (if 180 < |roundValue (a - b)| then roundValue (360 - |roundValue (a - b)|)
             else |roundValue (a - b)|) := by
  have r360 : roundValue 360 = 360 := by
    simpa using roundValue_intCast 360 (by norm_num)
  have hv := abs_roundValue_le r360 h
  refine ⟨hv, ?_⟩
  have e1 := roundDouble_of_abs_le r360 (by norm_num) h
  unfold angularDelta
  simp only [sub_fin, e1, abs_fin, gt_fin]
  by_cases hc : 180 < |roundValue (a - b)|
  · simp only [hc, decide_True, if_true, sub_fin]
    apply roundDouble_of_abs_le r360 (by norm_num)
    have := abs_nonneg (roundValue (a - b))
    rw [abs_le]
    constructor <;> linarith
  · simp only [hc, decide_False, Bool.false_eq_true, if_false]

/-! ## Claims -/

/-- C1: the lock state machine of `updateCompassUI` on finite heading and
azimuth, with delta the value computed by the tick.  The delta is not NaN; from
UNLOCKED with delta < 5 the tick moves to LOCKED and fires exactly one engage;
from LOCKED with delta >= 5 it moves to UNLOCKED and fires exactly one
disengage; in the two other cases the state is unchanged and nothing is fired.
Hence an effect is fired iff the lock state changes, and running the same tick
again fires nothing and changes nothing.  On the trace of the specification:
(100, 103) has delta 3 and engages once from UNLOCKED, the same tick again
fires nothing, then (95, 103) has delta 8 and disengages once. -/
theorem C1_lock_state_machine :
    (∀ (b : Bool) (h a : ℚ),
      angularDelta (fin h) (fin a) ≠ nan ∧
      (b = false → lt (angularDelta (fin h) (fin a)) (fin 5) = true →
        updateCompassUI ⟨fin h, fin a, b⟩ = (⟨fin h, fin a, true⟩, [Effect.engage])) ∧
      (b = true → ge (angularDelta (fin h) (fin a)) (fin 5) = true →
        updateCompassUI ⟨fin h, fin a, b⟩ = (⟨fin h, fin a, false⟩, [Effect.disengage])) ∧
      (¬ (b = false ∧ lt (angularDelta (fin h) (fin a)) (fin 5) = true) →
        ¬ (b = true ∧ ge (angularDelta (fin h) (fin a)) (fin 5) = true) →
        updateCompassUI ⟨fin h, fin a, b⟩ = (⟨fin h, fin a, b⟩, [])) ∧
      ((updateCompassUI ⟨fin h, fin a, b⟩).2 ≠ [] ↔
        (updateCompassUI ⟨fin h, fin a, b⟩).1.isLocked ≠ b) ∧
      updateCompassUI (updateCompassUI ⟨fin h, fin a, b⟩).1
        = ((updateCompassUI ⟨fin h, fin a, b⟩).1, [])) ∧
    angularDelta (fin 100) (fin 103) = fin 3 ∧
    updateCompassUI ⟨fin 100, fin 103, false⟩
      = (⟨fin 100, fin 103, true⟩, [Effect.engage]) ∧
    updateCompassUI ⟨fin 100, fin 103, true⟩ = (⟨fin 100, fin 103, true⟩, []) ∧
    angularDelta (fin 95) (fin 103) = fin 8 ∧
    updateCompassUI ⟨fin 95, fin 103, true⟩
      = (⟨fin 95, fin 103, false⟩, [Effect.disengage]) := by
  have t1 : angularDelta (fin 100) (fin 103) = fin 3 := by
    have := angularDelta_intCast 100 103 (by norm_num) (by norm_num)
    norm_num at this
    exact this
  have t2 : angularDelta (fin 95) (fin 103) = fin 8 := by
    have := angularDelta_intCast 95 103 (by norm_num) (by norm_num)
    norm_num at this
    exact this
  refine ⟨?_, t1, ?_, ?_, t2, ?_⟩
  · intro b h a
    have hd := angularDelta_fin_ne_nan h a
    refine ⟨hd, ?_⟩
    simp only [updateCompassUI]
    generalize angularDelta (fin h) (fin a) = d at hd
    obtain ⟨hge, hstep⟩ := lockStep_of_ne_nan b d hd
    have hstep2 := (lockStep_of_ne_nan true d hd).2
    have hstep3 := (lockStep_of_ne_nan false d hd).2
    rw [hge]
    cases h5 : lt d (fin 5) <;> cases b <;> simp_all
  · simp [updateCompassUI, t1, lockStep]; norm_num
  · simp [updateCompassUI, t1, lockStep]; norm_num
  · simp [updateCompassUI, t2, lockStep]; norm_num


/-- C2: for a, b in [0,360) the delta of `updateCompassUI` is symmetric and is
a finite value in [0,180]. -/
theorem C2_angularDelta_symmetric_bounded (a b : ℚ)
    (ha0 : 0 ≤ a) (ha : a < 360) (hb0 : 0 ≤ b) (hb : b < 360) :
    angularDelta (fin a) (fin b) = angularDelta (fin b) (fin a) ∧
    ∃ d : ℚ, angularDelta (fin a) (fin b) = fin d ∧ 0 ≤ d ∧ d ≤ 180 := by
  have hab : |a - b| ≤ 360 := by rw [abs_le]; constructor <;> linarith
  have hba : |b - a| ≤ 360 := by rw [abs_le]; constructor <;> linarith
  obtain ⟨hv, e1⟩ := angularDelta_fin_of_abs_le a b hab
  obtain ⟨-, e2⟩ := angularDelta_fin_of_abs_le b a hba
  have hneg : roundValue (b - a) = -roundValue (a - b) := by
    rw [← roundValue_neg]; congr 1; ring
  refine ⟨?_, _, e1, ?_, ?_⟩
  · rw [e1, e2, hneg, abs_neg]
  · split_ifs with h
    · exact roundValue_nonneg (by linarith)
    · exact abs_nonneg _
  · have r180 : roundValue 180 = 180 := by
      simpa using roundValue_intCast 180 (by norm_num)
    split_ifs with h
    · have h0 := abs_nonneg (roundValue (a - b))
      have := abs_roundValue_le (q := 360 - |roundValue (a - b)|) r180
        (by rw [abs_le]; constructor <;> linarith)
      exact le_trans (le_abs_self _) this
    · exact not_lt.mp h

/-- C2 at a = 10, b = 350. -/
theorem C2_angularDelta_symmetric_bounded_witness :
    (0 : ℚ) ≤ 10 ∧ (10 : ℚ) < 360 ∧ (0 : ℚ) ≤ 350 ∧ (350 : ℚ) < 360 ∧
    (angularDelta (fin 10) (fin 350) = angularDelta (fin 350) (fin 10) ∧
     ∃ d : ℚ, angularDelta (fin 10) (fin 350) = fin d ∧ 0 ≤ d ∧ d ≤ 180) :=
  ⟨by norm_num, by norm_num, by norm_num, by norm_num,
   C2_angularDelta_symmetric_bounded 10 350 (by norm_num) (by norm_num)
     (by norm_num) (by norm_num)⟩


/-- C3 fails as stated: a = 359 and b = 2^-60 are doubles in [0,360); the
subtraction of line 214 rounds 359 - 2^-60 to 359, so the delta is 1, while
min(|a - b|, 360 - |a - b|) is 1 + 2^-60. -/
theorem C3_delta_rounds :
    angularDelta (fin 359) (fin (1 / 2 ^ 60)) = fin 1 ∧
    specShortestDistance 359 (1 / 2 ^ 60) = 1 + 1 / 2 ^ 60 ∧
    angularDelta (fin 359) (fin (1 / 2 ^ 60))
      ≠ fin (specShortestDistance 359 (1 / 2 ^ 60)) := by
  have e1 : roundDouble ((359 : ℚ) - 1 / 2 ^ 60) = fin 359 :=
    roundDouble_eq_of_near _ _ 8 (359 * 2 ^ 44) (by norm_num) (by norm_num)
      (by norm_num) (by norm_num) (by rw [abs_lt]; constructor <;> norm_num)
      (by norm_num)
  have e2 : roundDouble (1 : ℚ) = fin 1 := by
    simpa using roundDouble_intCast 1 (by norm_num)
  have hd : angularDelta (fin 359) (fin (1 / 2 ^ 60)) = fin 1 := by
    unfold angularDelta
    simp only [sub_fin, e1, abs_fin, gt_fin]
    norm_num [e2]
  have hs : specShortestDistance 359 (1 / 2 ^ 60) = 1 + 1 / 2 ^ 60 := by
    unfold specShortestDistance
    rw [abs_of_pos (by norm_num), min_eq_right (by norm_num)]
    norm_num
  refine ⟨hd, hs, ?_⟩
  rw [hd, hs]
  intro h
  have := JSNum.fin.inj h
  norm_num at this

/-- C3 amended: for a, b in [0,360) the delta of `updateCompassUI` is the
shortest distance on the circle, min(|a - b|, 360 - |a - b|), up to the
rounding of its two subtractions, an error of at most 2^-44; it is exactly that
distance when a and b are whole numbers of degrees; the delta of a finite
value with itself is 0; the delta of 10 and 350 is 20 and of 0 and 180 is
180. -/
theorem C3_angularDelta_shortest :
    (∀ a b : ℚ, 0 ≤ a → a < 360 → 0 ≤ b → b < 360 →
      ∃ d : ℚ, angularDelta (fin a) (fin b) = fin d ∧
        |d - specShortestDistance a b| ≤ 1 / 2 ^ 44) ∧
    (∀ m n : ℤ, 0 ≤ m → m < 360 → 0 ≤ n → n < 360 →
      angularDelta (fin (m : ℚ)) (fin (n : ℚ))
        = fin (specShortestDistance (m : ℚ) (n : ℚ))) ∧
    (∀ c : ℚ, angularDelta (fin c) (fin c) = fin 0) ∧
    angularDelta (fin 10) (fin 350) = fin 20 ∧
    angularDelta (fin 0) (fin 180) = fin 180 := by
  have hint : ∀ m n : ℤ, |m| < 2 ^ 52 → |n| < 2 ^ 52 → |m - n| ≤ 360 →
      angularDelta (fin (m : ℚ)) (fin (n : ℚ))
        = fin (specShortestDistance (m : ℚ) (n : ℚ)) := by
    intro m n hm hn hmn
    rw [angularDelta_intCast m n hm hn, specShortestDistance]
    congr 1
    have e : |(m : ℚ) - (n : ℚ)| = ((|m - n| : ℤ) : ℚ) := by
      rw [Int.cast_abs, Int.cast_sub]
    rw [e]
    split_ifs with h
    · have h2 : (180 : ℚ) < ((|m - n| : ℤ) : ℚ) := by exact_mod_cast h
      rw [min_eq_right (by linarith)]
      push_cast; ring
    · have h2 : ((|m - n| : ℤ) : ℚ) ≤ 180 := by exact_mod_cast not_lt.mp h
      rw [min_eq_left (by linarith)]
  refine ⟨?_, ?_, ?_, ?_, ?_⟩
  · intro a b ha0 ha hb0 hb
    have hab : |a - b| ≤ 360 := by rw [abs_le]; constructor <;> linarith
    obtain ⟨-, e1⟩ := angularDelta_fin_of_abs_le a b hab
    refine ⟨_, e1, ?_⟩
    have r180 : roundValue 180 = 180 := by
      simpa using roundValue_intCast 180 (by norm_num)
    have herr : |roundValue (a - b) - (a - b)| ≤ 1 / 2 ^ 45 := by
      have := abs_roundValue_sub_le (q := a - b) (E := 8) (by norm_num)
        (lt_of_le_of_lt hab (by norm_num))
      norm_num at this ⊢
      exact this
    have hXV : |(|roundValue (a - b)| - |a - b|)| ≤ 1 / 2 ^ 45 :=
      le_trans (abs_abs_sub_abs_le_abs_sub _ _) herr
    have hle : |a - b| ≤ 180 → |roundValue (a - b)| ≤ 180 :=
      fun h => abs_roundValue_le r180 h
    have hge : 180 ≤ |a - b| → 180 ≤ |roundValue (a - b)| := by
      intro h
      rcases le_abs.mp h with h1 | h1
      · have := roundValue_mono h1
        rw [r180] at this
        exact le_trans this (le_abs_self _)
      · have := roundValue_mono (show a - b ≤ -180 by linarith)
        rw [roundValue_neg, r180] at this
        exact le_trans (by linarith) (neg_le_abs _)
    generalize |roundValue (a - b)| = V at hXV hle hge ⊢
    unfold specShortestDistance
    generalize |a - b| = X at hXV hle hge hab ⊢
    rw [abs_le] at hXV
    split_ifs with hc
    · have hX : 180 < X := by
        by_contra hn
        exact absurd (hle (not_lt.mp hn)) (not_le.mpr hc)
      rw [min_eq_right (by linarith)]
      have h2 : |roundValue (360 - V) - (360 - V)| ≤ 1 / 2 ^ 46 := by
        have := abs_roundValue_sub_le (q := 360 - V) (E := 7) (by norm_num)
          (by rw [abs_lt]; constructor <;> norm_num <;> linarith)
        norm_num at this ⊢
        exact this
      rw [abs_le] at h2 ⊢
      constructor <;> norm_num at h2 hXV ⊢ <;> linarith
    · have hV : V ≤ 180 := not_lt.mp hc
      rcases le_or_lt X 180 with hX | hX
      · rw [min_eq_left (by linarith), abs_le]
        constructor <;> norm_num at hXV ⊢ <;> linarith
      · have hV2 := hge hX.le
        rw [min_eq_right (by linarith), abs_le]
        constructor <;> norm_num at hXV ⊢ <;> linarith
  · intro m n hm0 hm hn0 hn
    apply hint m n
    · rw [abs_lt]; constructor <;> omega
    · rw [abs_lt]; constructor <;> omega
    · rw [abs_le]; constructor <;> omega
  · intro c
    obtain ⟨-, e1⟩ := angularDelta_fin_of_abs_le c c (by simp)
    rw [e1]
    simp [roundValue_zero]
  · have := hint 10 350 (by norm_num) (by norm_num) (by norm_num)
    norm_num [specShortestDistance] at this
    rw [this]
  · have := hint 0 180 (by norm_num) (by norm_num) (by norm_num)
    norm_num [specShortestDistance] at this
    rw [this]

/-- C3 amended at a = 359.5, b = 0.25 and at the whole degrees 350 and 10. -/
theorem C3_angularDelta_shortest_witness :
    ((0 : ℚ) ≤ 719 / 2 ∧ (719 / 2 : ℚ) < 360 ∧ (0 : ℚ) ≤ 1 / 4 ∧ (1 / 4 : ℚ) < 360 ∧
      ∃ d : ℚ, angularDelta (fin (719 / 2)) (fin (1 / 4)) = fin d ∧
        |d - specShortestDistance (719 / 2) (1 / 4)| ≤ 1 / 2 ^ 44) ∧
    ((0 : ℤ) ≤ 350 ∧ (350 : ℤ) < 360 ∧ (0 : ℤ) ≤ 10 ∧ (10 : ℤ) < 360 ∧
      angularDelta (fin ((350 : ℤ) : ℚ)) (fin ((10 : ℤ) : ℚ))
        = fin (specShortestDistance ((350 : ℤ) : ℚ) ((10 : ℤ) : ℚ))) :=
  ⟨⟨by norm_num, by norm_num, by norm_num, by norm_num,
    C3_angularDelta_shortest.1 (719 / 2) (1 / 4) (by norm_num) (by norm_num)
      (by norm_num) (by norm_num)⟩,
   ⟨by norm_num, by norm_num, by norm_num, by norm_num,
    C3_angularDelta_shortest.2.1 350 10 (by norm_num) (by norm_num)
      (by norm_num) (by norm_num)⟩⟩

/-- The phase table on a finite phase, as a chain of tests on the rational. -/
theorem getMoonPhaseName_fin (q : ℚ) :
    getMoonPhaseName (fin q)
      = if q = 0 then "New Moon"
        else if q < 1/4 then "Waxing Crescent"
        else if q = 1/4 then "First Quarter"
        else if q < 1/2 then "Waxing Gibbous"
        else if q = 1/2 then "Full Moon"
        else if q < 3/4 then "Waning Gibbous"
        else if q = 3/4 then "Last Quarter"
        else "Waning Crescent" := by
  simp [getMoonPhaseName]

/-- The name returned on each of the eight regions of [0,1). -/
theorem getMoonPhaseName_regions (q : ℚ) :
    (q = 0 → getMoonPhaseName (fin q) = "New Moon") ∧
    (0 < q → q < 1/4 → getMoonPhaseName (fin q) = "Waxing Crescent") ∧
    (q = 1/4 → getMoonPhaseName (fin q) = "First Quarter") ∧
    (1/4 < q → q < 1/2 → getMoonPhaseName (fin q) = "Waxing Gibbous") ∧
    (q = 1/2 → getMoonPhaseName (fin q) = "Full Moon") ∧
    (1/2 < q → q < 3/4 → getMoonPhaseName (fin q) = "Waning Gibbous") ∧
    (q = 3/4 → getMoonPhaseName (fin q) = "Last Quarter") ∧
    (3/4 < q → getMoonPhaseName (fin q) = "Waning Crescent") := by
  rw [getMoonPhaseName_fin]
  refine ⟨?_, ?_, ?_, ?_, ?_, ?_, ?_, ?_⟩
  · intro e; simp [e]
  · intro a b
    rw [if_neg (ne_of_gt a), if_pos b]
  · intro e; subst e; norm_num
  · intro a b
    rw [if_neg (by linarith), if_neg (by linarith), if_neg (ne_of_gt a), if_pos b]
  · intro e; subst e; norm_num
  · intro a b
    rw [if_neg (by linarith), if_neg (by linarith), if_neg (by linarith),
      if_neg (by linarith), if_neg (ne_of_gt a), if_pos b]
  · intro e; subst e; norm_num
  · intro a
    rw [if_neg (by linarith), if_neg (by linarith), if_neg (by linarith),
      if_neg (by linarith), if_neg (by linarith), if_neg (by linarith),
      if_neg (ne_of_gt a)]

/-- C4: `getMoonPhaseName` on a phase in [0,1) follows the boundary table: New
Moon iff phase = 0, Waxing Crescent iff 0 < phase < 0.25, First Quarter iff
phase = 0.25, Waxing Gibbous iff 0.25 < phase < 0.5, Full Moon iff phase = 0.5,
Waning Gibbous iff 0.5 < phase < 0.75, Last Quarter iff phase = 0.75, Waning
Crescent iff 0.75 < phase < 1. -/
theorem C4_phase_table (q : ℚ) (h0 : 0 ≤ q) (h1 : q < 1) :
    (getMoonPhaseName (fin q) = "New Moon" ↔ q = 0) ∧
    (getMoonPhaseName (fin q) = "Waxing Crescent" ↔ 0 < q ∧ q < 1/4) ∧
    (getMoonPhaseName (fin q) = "First Quarter" ↔ q = 1/4) ∧
    (getMoonPhaseName (fin q) = "Waxing Gibbous" ↔ 1/4 < q ∧ q < 1/2) ∧
    (getMoonPhaseName (fin q) = "Full Moon" ↔ q = 1/2) ∧
    (getMoonPhaseName (fin q) = "Waning Gibbous" ↔ 1/2 < q ∧ q < 3/4) ∧
    (getMoonPhaseName (fin q) = "Last Quarter" ↔ q = 3/4) ∧
    (getMoonPhaseName (fin q) = "Waning Crescent" ↔ 3/4 < q ∧ q < 1) := by
  have key : q = 0 ∨ (0 < q ∧ q < 1/4) ∨ q = 1/4 ∨ (1/4 < q ∧ q < 1/2) ∨ q = 1/2 ∨
      (1/2 < q ∧ q < 3/4) ∨ q = 3/4 ∨ (3/4 < q ∧ q < 1) := by
    rcases eq_or_lt_of_le h0 with e | p
    · exact Or.inl e.symm
    rcases lt_trichotomy q (1/4) with l | e | g
    · exact Or.inr (Or.inl ⟨p, l⟩)
    · exact Or.inr (Or.inr (Or.inl e))
    rcases lt_trichotomy q (1/2) with l | e | g2
    · exact Or.inr (Or.inr (Or.inr (Or.inl ⟨g, l⟩)))
    · exact Or.inr (Or.inr (Or.inr (Or.inr (Or.inl e))))
    rcases lt_trichotomy q (3/4) with l | e | g3
    · exact Or.inr (Or.inr (Or.inr (Or.inr (Or.inr (Or.inl ⟨g2, l⟩)))))
    · exact Or.inr (Or.inr (Or.inr (Or.inr (Or.inr (Or.inr (Or.inl e))))))
    · exact Or.inr (Or.inr (Or.inr (Or.inr (Or.inr (Or.inr (Or.inr ⟨g3, h1⟩))))))
  obtain ⟨r0, r1, r2, r3, r4, r5, r6, r7⟩ := getMoonPhaseName_regions q
  rcases key with e | ⟨a, b⟩ | e | ⟨a, b⟩ | e | ⟨a, b⟩ | e | ⟨a, b⟩
  · rw [r0 e]; subst e
    refine ⟨?_, ?_, ?_, ?_, ?_, ?_, ?_, ?_⟩ <;> simp <;> norm_num
  · rw [r1 a b]
    refine ⟨?_, ?_, ?_, ?_, ?_, ?_, ?_, ?_⟩ <;> simp <;> (try intros) <;>
      (try constructor) <;> linarith
  · rw [r2 e]; subst e
    refine ⟨?_, ?_, ?_, ?_, ?_, ?_, ?_, ?_⟩ <;> simp <;> norm_num
  · rw [r3 a b]
    refine ⟨?_, ?_, ?_, ?_, ?_, ?_, ?_, ?_⟩ <;> simp <;> (try intros) <;>
      (try constructor) <;> linarith
  · rw [r4 e]; subst e
    refine ⟨?_, ?_, ?_, ?_, ?_, ?_, ?_, ?_⟩ <;> simp <;> norm_num
  · rw [r5 a b]
    refine ⟨?_, ?_, ?_, ?_, ?_, ?_, ?_, ?_⟩ <;> simp <;> (try intros) <;>
      (try constructor) <;> linarith
  · rw [r6 e]; subst e
    refine ⟨?_, ?_, ?_, ?_, ?_, ?_, ?_, ?_⟩ <;> simp <;> norm_num
  · rw [r7 a]
    refine ⟨?_, ?_, ?_, ?_, ?_, ?_, ?_, ?_⟩ <;> simp <;> (try intros) <;>
      (try constructor) <;> linarith

/-- C4 on the values of the specification: 0, 0.25, 0.5, 0.75, 0.1 and 0.99. -/
theorem C4_phase_table_witness :
    ((0 : ℚ) ≤ 1/10 ∧ (1/10 : ℚ) < 1) ∧
    getMoonPhaseName (fin 0) = "New Moon" ∧
    getMoonPhaseName (fin (1/4)) = "First Quarter" ∧
    getMoonPhaseName (fin (1/2)) = "Full Moon" ∧
    getMoonPhaseName (fin (3/4)) = "Last Quarter" ∧
    getMoonPhaseName (fin (1/10)) = "Waxing Crescent" ∧
    getMoonPhaseName (fin (99/100)) = "Waning Crescent" :=
  ⟨⟨by norm_num, by norm_num⟩,
   (C4_phase_table 0 (by norm_num) (by norm_num)).1.mpr rfl,
   (C4_phase_table (1/4) (by norm_num) (by norm_num)).2.2.1.mpr rfl,
   (C4_phase_table (1/2) (by norm_num) (by norm_num)).2.2.2.2.1.mpr rfl,
   (C4_phase_table (3/4) (by norm_num) (by norm_num)).2.2.2.2.2.2.1.mpr rfl,
   (C4_phase_table (1/10) (by norm_num) (by norm_num)).2.1.mpr
     ⟨by norm_num, by norm_num⟩,
   (C4_phase_table (99/100) (by norm_num) (by norm_num)).2.2.2.2.2.2.2.mpr
     ⟨by norm_num, by norm_num⟩⟩

/-- The constant `Math.PI` is positive. -/
theorem Math_PI_pos : 0 < Math_PI := by
  unfold Math_PI; norm_num

/-- The product `Math.PI * 180` rounds up to 4974073419394997 / 2^43. -/
theorem roundValue_PI_mul_180 :
    roundValue (Math_PI * 180) = 4974073419394997 / 2 ^ 43 := by
  unfold Math_PI
  exact roundValue_eq_of_near _ _ 9 4974073419394997 (by norm_num) (by norm_num)
    (by norm_num) (by rw [abs_lt]; constructor <;> norm_num) (by norm_num)

/-- The rounded product divided by `Math.PI` rounds to 180. -/
theorem roundValue_PI_mul_180_div_PI :
    roundValue (4974073419394997 / 2 ^ 43 / Math_PI) = 180 := by
  unfold Math_PI
  exact roundValue_eq_of_near _ _ 7 (180 * 2 ^ 45) (by norm_num) (by norm_num)
    (by norm_num) (by rw [abs_lt]; constructor <;> norm_num) (by norm_num)

/-- The value stored by `updateTelemetry` for an azimuth of magnitude at most
`Math.PI`: the three roundings stay finite, the second within [-180, 180]. -/
theorem updateTelemetry_moonAzimuth_of_abs_le (az : ℚ) (h : |az| ≤ Math_PI) :
    |roundValue (roundValue (az * 180) / Math_PI)| ≤ 180 ∧
    updateTelemetry_moonAzimuth (fin az)
      = fin (roundValue (roundValue (roundValue (az * 180) / Math_PI) + 180)) := by
  have hp := Math_PI_pos
  have r360 : roundValue 360 = 360 := by
    simpa using roundValue_intCast 360 (by norm_num)
  have h1 : |az * 180| ≤ Math_PI * 180 := by
    rw [abs_mul, abs_of_pos (show (0 : ℚ) < 180 by norm_num)]
    exact mul_le_mul_of_nonneg_right h (by norm_num)
  have hv1 := abs_roundValue_le_roundValue h1
  rw [roundValue_PI_mul_180] at hv1
  have e1 : roundDouble (az * 180) = fin (roundValue (az * 180)) :=
    roundDouble_eq_fin (lt_of_le_of_lt hv1 (by norm_num))
  have h2 : |roundValue (az * 180) / Math_PI| ≤ 4974073419394997 / 2 ^ 43 / Math_PI := by
    rw [abs_div, abs_of_pos hp]
    exact div_le_div_of_nonneg_right hv1 hp.le
  have hv2 := abs_roundValue_le_roundValue h2
  rw [roundValue_PI_mul_180_div_PI] at hv2
  have e2 : roundDouble (roundValue (az * 180) / Math_PI)
      = fin (roundValue (roundValue (az * 180) / Math_PI)) :=
    roundDouble_eq_fin (lt_of_le_of_lt hv2 (by norm_num))
  have h3 : |roundValue (roundValue (az * 180) / Math_PI) + 180| ≤ 360 := by
    rw [abs_le] at hv2 ⊢
    constructor <;> linarith
  have e3 := roundDouble_of_abs_le r360 (by norm_num) h3
  refine ⟨hv2, ?_⟩
  unfold updateTelemetry_moonAzimuth
  rw [mul_fin, e1, div_fin _ _ (ne_of_gt hp), e2, add_fin, e3]

/-- At `Math.PI` the conversion stores exactly 360. -/
theorem updateTelemetry_moonAzimuth_PI :
    updateTelemetry_moonAzimuth (fin Math_PI) = fin 360 := by
  have hp := Math_PI_pos
  rw [(updateTelemetry_moonAzimuth_of_abs_le Math_PI (by rw [abs_of_pos hp])).2,
    roundValue_PI_mul_180, roundValue_PI_mul_180_div_PI]
  have : ((180 : ℚ) + 180) = ((360 : ℤ) : ℚ) := by norm_num
  rw [this, roundValue_intCast 360 (by norm_num)]
  norm_num

/-- C5 fails as stated: the azimuth `Math.PI`, which the provider's atan2 can
return, is stored as exactly 360, which is not in [0,360). -/
theorem C5_moonAzimuth_not_wrapped :
    updateTelemetry_moonAzimuth (fin Math_PI) = fin 360 ∧
    ¬ ∃ d : ℚ, updateTelemetry_moonAzimuth (fin Math_PI) = fin d ∧ 0 ≤ d ∧ d < 360 := by
  refine ⟨updateTelemetry_moonAzimuth_PI, ?_⟩
  rintro ⟨d, hd, -, h2⟩
  rw [updateTelemetry_moonAzimuth_PI] at hd
  have := JSNum.fin.inj hd
  linarith

/-- C5 amended: `updateTelemetry` stores the rounded value of
`azimuth * 180 / Math.PI + 180` with no modular wrap; for every azimuth in
[-Math.PI, Math.PI] the stored value is finite and lies in [0,360], where 360
itself is stored for `Math.PI` and 0 for `-Math.PI`. -/
theorem C5_moonAzimuth_range :
    (∀ az : ℚ, -Math_PI ≤ az → az ≤ Math_PI →
      ∃ d : ℚ, updateTelemetry_moonAzimuth (fin az) = fin d ∧
        d = roundValue (roundValue (roundValue (az * 180) / Math_PI) + 180) ∧
        0 ≤ d ∧ d ≤ 360) ∧
    updateTelemetry_moonAzimuth (fin Math_PI) = fin 360 ∧
    updateTelemetry_moonAzimuth (fin (-Math_PI)) = fin 0 := by
  have hp := Math_PI_pos
  have r360 : roundValue 360 = 360 := by
    simpa using roundValue_intCast 360 (by norm_num)
  refine ⟨?_, updateTelemetry_moonAzimuth_PI, ?_⟩
  · intro az h1 h2
    obtain ⟨hv, e⟩ := updateTelemetry_moonAzimuth_of_abs_le az (abs_le.mpr ⟨h1, h2⟩)
    refine ⟨_, e, rfl, ?_, ?_⟩
    · rw [abs_le] at hv
      exact roundValue_nonneg (by linarith)
    · rw [abs_le] at hv
      have := roundValue_mono
        (show roundValue (roundValue (az * 180) / Math_PI) + 180 ≤ 360 by linarith)
      rwa [r360] at this
  · rw [(updateTelemetry_moonAzimuth_of_abs_le (-Math_PI)
      (by rw [abs_neg, abs_of_pos hp])).2]
    rw [neg_mul, roundValue_neg, roundValue_PI_mul_180, neg_div, roundValue_neg,
      roundValue_PI_mul_180_div_PI]
    norm_num [roundValue_zero]

/-- C5 amended at azimuth 1 radian. -/
theorem C5_moonAzimuth_range_witness :
    -Math_PI ≤ 1 ∧ (1 : ℚ) ≤ Math_PI ∧
    ∃ d : ℚ, updateTelemetry_moonAzimuth (fin 1) = fin d ∧
      d = roundValue (roundValue (roundValue (1 * 180) / Math_PI) + 180) ∧
      0 ≤ d ∧ d ≤ 360 :=
  ⟨by unfold Math_PI; norm_num, by unfold Math_PI; norm_num,
   C5_moonAzimuth_range.1 1 (by unfold Math_PI; norm_num) (by unfold Math_PI; norm_num)⟩


/-- The two clamp statements of lines 287-288 on a finite quotient. -/
theorem clamp_fin (q : ℚ) :
    (if gt (if lt (fin q) (fin 0) then fin 0 else fin q) (fin 1) then fin 1
      else (if lt (fin q) (fin 0) then fin 0 else fin q))
      = fin (specClamp01 q) := by
  unfold specClamp01
  by_cases h0 : q < 0
  · have h1 : min q 1 = q := min_eq_left (by linarith)
    simp [h0, h1, max_eq_left h0.le]
  · have h0' : 0 ≤ q := not_lt.mp h0
    by_cases h1 : 1 < q
    · simp [h0, h1, min_eq_right h1.le]
    · have h1' : q ≤ 1 := not_lt.mp h1
      simp [h0, h1, min_eq_left h1', max_eq_right h0']

/-- The difference of two time values is rounded to a finite value of
magnitude at most 2^54. -/
theorem sub_timeValue (x y : ℤ) (hx : isTimeValue x) (hy : isTimeValue y) :
    sub (fin (x : ℚ)) (fin (y : ℚ)) = fin (roundValue ((x : ℚ) - y)) ∧
    |roundValue ((x : ℚ) - y)| ≤ 2 ^ 54 := by
  have r54 : roundValue ((2 : ℚ) ^ 54) = 2 ^ 54 := by
    have := roundValue_eq_self 1 54 (by norm_num) (by norm_num)
    norm_num at this ⊢
    exact this
  unfold isTimeValue at hx hy
  have h : |(x : ℚ) - y| ≤ 2 ^ 54 := by
    have h1 : |x - y| ≤ 2 ^ 54 := by
      have := abs_sub x y
      omega
    have h2 : ((|x - y| : ℤ) : ℚ) ≤ ((2 ^ 54 : ℤ) : ℚ) := by exact_mod_cast h1
    rw [Int.cast_abs, Int.cast_sub] at h2
    norm_num at h2 ⊢
    exact h2
  refine ⟨?_, abs_roundValue_le r54 h⟩
  rw [sub_fin]
  exact roundDouble_of_abs_le r54 (by norm_num) h

/-- The progress over a window of valid dates with rise < set: the quotient of
line 284 is finite, the progress is its clamp, in [0,1], 0 up to the rise time
and 1 from the set time on. -/
theorem trajectoryProgress_of_lt (r s now : ℤ)
    (hr : isTimeValue r) (hs : isTimeValue s) (hnow : isTimeValue now) (hrs : r < s) :
    ∃ q t : ℚ,
      div (sub (fin (now : ℚ)) (fin (r : ℚ))) (sub (fin (s : ℚ)) (fin (r : ℚ))) = fin q ∧
      (|now - r| < 2 ^ 53 → |s - r| < 2 ^ 53 →
        q = roundValue (((now : ℚ) - r) / ((s : ℚ) - r))) ∧
      trajectoryProgress r s now = fin t ∧
      t = specClamp01 q ∧
      0 ≤ t ∧ t ≤ 1 ∧ (now ≤ r → t = 0) ∧ (s ≤ now → t = 1) := by
  have r1 : roundValue 1 = 1 := by
    simpa using roundValue_intCast 1 (by norm_num)
  have r54 : roundValue ((2 : ℚ) ^ 54) = 2 ^ 54 := by
    have := roundValue_eq_self 1 54 (by norm_num) (by norm_num)
    norm_num at this ⊢
    exact this
  obtain ⟨eD, hD⟩ := sub_timeValue s r hs hr
  obtain ⟨eE, hE⟩ := sub_timeValue now r hnow hr
  have hrs' : (1 : ℚ) ≤ (s : ℚ) - r := by
    have : (r : ℚ) + 1 ≤ s := by exact_mod_cast hrs
    linarith
  have hD1 : 1 ≤ roundValue ((s : ℚ) - r) := by
    have := roundValue_mono hrs'
    rwa [r1] at this
  have hDpos : 0 < roundValue ((s : ℚ) - r) := by linarith
  have hquot : |roundValue ((now : ℚ) - r) / roundValue ((s : ℚ) - r)| ≤ 2 ^ 54 := by
    rw [abs_div, abs_of_pos hDpos]
    exact le_trans (div_le_self (abs_nonneg _) hD1) hE
  have eq : div (sub (fin (now : ℚ)) (fin (r : ℚ))) (sub (fin (s : ℚ)) (fin (r : ℚ)))
      = fin (roundValue (roundValue ((now : ℚ) - r) / roundValue ((s : ℚ) - r))) := by
    rw [eD, eE, div_fin _ _ (ne_of_gt hDpos)]
    exact roundDouble_of_abs_le r54 (by norm_num) hquot
  have ep : trajectoryProgress r s now
      = fin (specClamp01
          (roundValue (roundValue ((now : ℚ) - r) / roundValue ((s : ℚ) - r)))) := by
    unfold trajectoryProgress
    simp only [eq]
    exact clamp_fin _
  refine ⟨_, _, eq, ?_, ep, rfl, ?_, ?_, ?_, ?_⟩
  · intro h1 h2
    have c1 : roundValue ((now : ℚ) - r) = (now : ℚ) - r := by
      have := roundValue_intCast (now - r) h1
      push_cast at this
      exact this
    have c2 : roundValue ((s : ℚ) - r) = (s : ℚ) - r := by
      have := roundValue_intCast (s - r) h2
      push_cast at this
      exact this
    rw [c1, c2]
  · exact le_max_left _ _
  · exact max_le zero_le_one (min_le_right _ _)
  · intro hn
    have hn' : (now : ℚ) - r ≤ 0 := by
      have : (now : ℚ) ≤ r := by exact_mod_cast hn
      linarith
    have h1 := roundValue_nonpos hn'
    have h2 : roundValue ((now : ℚ) - r) / roundValue ((s : ℚ) - r) ≤ 0 :=
      div_nonpos_of_nonpos_of_nonneg h1 hDpos.le
    have h3 := roundValue_nonpos h2
    unfold specClamp01
    rw [min_eq_left (by linarith), max_eq_left h3]
  · intro hn
    have hn' : (s : ℚ) - r ≤ (now : ℚ) - r := by
      have : (s : ℚ) ≤ now := by exact_mod_cast hn
      linarith
    have h1 := roundValue_mono hn'
    have h2 : 1 ≤ roundValue ((now : ℚ) - r) / roundValue ((s : ℚ) - r) := by
      rw [one_le_div hDpos]
      exact h1
    have h3 := roundValue_mono h2
    rw [r1] at h3
    unfold specClamp01
    rw [min_eq_right h3, max_eq_right zero_le_one]

/-- C6: `drawTrajectory` draws a marker iff both rise and set are present, and
draws the arc from (0, height) in either case.  When both are present, are
valid dates and rise < set, the quotient (now - rise)/(set - rise) computed by
line 284 is a finite value q (the exact quotient rounded once when both
differences are below 2^53), the progress is t = clamp(q, 0, 1), which is in
[0,1], is 0 for every now <= rise and is 1 for every now >= set, and the marker
is drawn at that progress. -/
theorem C6_marker_and_progress :
    (∀ (width height : ℕ) (rise set : Option ℤ) (now : ℤ),
      ((drawTrajectory width height rise set now).marker.isSome = true ↔
        (rise.isSome = true ∧ set.isSome = true)) ∧
      (drawTrajectory width height rise set now).arcStart = (fin 0, fin (height : ℚ)) ∧
      (drawTrajectory width height rise set now).arcControl
        = (div (fin (width : ℚ)) (fin 2), fin 20) ∧
      (drawTrajectory width height rise set now).arcEnd
        = (fin (width : ℚ), fin (height : ℚ))) ∧
    (∀ (width height : ℕ) (r s now : ℤ),
      isTimeValue r → isTimeValue s → isTimeValue now → r < s →
      ∃ q t : ℚ,
        div (sub (fin (now : ℚ)) (fin (r : ℚ))) (sub (fin (s : ℚ)) (fin (r : ℚ))) = fin q ∧
        (|now - r| < 2 ^ 53 → |s - r| < 2 ^ 53 →
          q = roundValue (((now : ℚ) - r) / ((s : ℚ) - r))) ∧
        trajectoryProgress r s now = fin t ∧
        t = specClamp01 q ∧
        0 ≤ t ∧ t ≤ 1 ∧ (now ≤ r → t = 0) ∧ (s ≤ now → t = 1) ∧
        (drawTrajectory width height (some r) (some s) now).marker
          = some (markerX (fin (width : ℚ)) (fin t), markerY (fin (height : ℚ)) (fin t))) := by
  constructor
  · intro width height rise set now
    refine ⟨?_, rfl, rfl, rfl⟩
    cases rise <;> cases set <;> simp [drawTrajectory]
  · intro width height r s now hr hs hnow hrs
    obtain ⟨q, t, h1, h2, h3, h4, h5, h6, h7, h8⟩ :=
      trajectoryProgress_of_lt r s now hr hs hnow hrs
    exact ⟨q, t, h1, h2, h3, h4, h5, h6, h7, h8, by simp [drawTrajectory, h3]⟩

/-- C6 on a window from 0 to 100 ms at now = -5: the progress is 0. -/
theorem C6_marker_and_progress_witness :
    (isTimeValue 0 ∧ isTimeValue 100 ∧ isTimeValue (-5) ∧ (0 : ℤ) < 100) ∧
    trajectoryProgress 0 100 (-5) = fin 0 := by
  have hv : isTimeValue 0 ∧ isTimeValue 100 ∧ isTimeValue (-5) ∧ (0 : ℤ) < 100 := by
    unfold isTimeValue
    norm_num
  obtain ⟨q, t, -, -, ht, -, -, -, h0, -, -⟩ :=
    C6_marker_and_progress.2 300 150 0 100 (-5) hv.1 hv.2.1 hv.2.2.1 hv.2.2.2
  exact ⟨hv, by rw [ht, h0 (by norm_num)]⟩


/-- A result that is at least 1 in exact arithmetic rounds to a positive finite
value or to +Infinity. -/
theorem roundDouble_of_one_le {q : ℚ} (h : 1 ≤ q) :
    roundDouble q = posInf ∨ ∃ v : ℚ, roundDouble q = fin v ∧ 0 < v := by
  have r1 : roundValue 1 = 1 := by
    simpa using roundValue_intCast 1 (by norm_num)
  have hv := roundValue_mono h
  rw [r1] at hv
  unfold roundDouble
  split_ifs with h1 h2
  · exact Or.inl rfl
  · exfalso
    have : (0 : ℚ) < 2 ^ 1024 := by positivity
    linarith
  · exact Or.inr ⟨_, rfl, by linarith⟩

/-- A result that is at most -1 in exact arithmetic rounds to a negative
finite value or to -Infinity. -/
theorem roundDouble_of_le_neg_one {q : ℚ} (h : q ≤ -1) :
    roundDouble q = negInf ∨ ∃ v : ℚ, roundDouble q = fin v ∧ v < 0 := by
  have r1 : roundValue 1 = 1 := by
    simpa using roundValue_intCast 1 (by norm_num)
  have hv := roundValue_mono h
  rw [roundValue_neg, r1] at hv
  unfold roundDouble
  split_ifs with h1 h2
  · exfalso
    have : (0 : ℚ) < 2 ^ 1024 := by positivity
    linarith
  · exact Or.inl rfl
  · exact Or.inr ⟨_, rfl, by linarith⟩

/-- On a zero-duration window the quotient is a division by zero, which yields
NaN when `now` is the rise time itself; both clamp tests are then false. -/
theorem trajectoryProgress_zero_window_at_rise (r : ℤ) :
    trajectoryProgress r r r = nan := by
  simp [trajectoryProgress, gt, roundDouble_zero]

/-- C7 fails as stated: with rise = set = 1000 and now = 500 the progress
resolves to 0, not to 1. -/
theorem C7_zero_window_before_rise :
    trajectoryProgress 1000 1000 500 = fin 0 ∧
    trajectoryProgress 1000 1000 500 ≠ fin 1 := by
  have h : trajectoryProgress 1000 1000 500 = fin 0 := by
    have e0 : roundDouble (-500 : ℚ) = fin (-500) := by
      simpa using roundDouble_intCast (-500) (by norm_num)
    have e : div (fin (-500)) (fin 0) = negInf := div_fin_zero_of_neg _ (by norm_num)
    norm_num [trajectoryProgress, gt, roundDouble_zero, e0, e]
  exact ⟨h, by rw [h]; simp⟩

/-- C7 amended: on a zero-duration window (rise = set) the division by zero
raises nothing and the progress is a value of the function: it resolves to 1
for every now after the rise time and to 0 for every now before it. -/
theorem C7_zero_window_progress (r now : ℤ) :
    (r < now → trajectoryProgress r r now = fin 1) ∧
    (now < r → trajectoryProgress r r now = fin 0) := by
  have e0 : sub (fin (r : ℚ)) (fin (r : ℚ)) = fin 0 := by
    rw [sub_fin, sub_self, roundDouble_zero]
  constructor
  · intro h
    have hx : (1 : ℚ) ≤ (now : ℚ) - r := by
      have : (r : ℚ) + 1 ≤ now := by exact_mod_cast h
      linarith
    unfold trajectoryProgress
    simp only [e0, sub_fin]
    rcases roundDouble_of_one_le hx with e | ⟨v, e, hv⟩
    · rw [e]; simp [div, gt]
    · rw [e, div_fin_zero_of_pos _ hv]; simp [gt]
  · intro h
    have hx : (now : ℚ) - r ≤ -1 := by
      have : (now : ℚ) + 1 ≤ r := by exact_mod_cast h
      linarith
    unfold trajectoryProgress
    simp only [e0, sub_fin]
    rcases roundDouble_of_le_neg_one hx with e | ⟨v, e, hv⟩
    · rw [e]; simp [div, gt, lt]
    · rw [e, div_fin_zero_of_neg _ hv]; simp [gt]

/-- C7 amended at rise = set = 1000: now = 1500 gives 1 and now = 500 gives 0. -/
theorem C7_zero_window_progress_witness :
    ((1000 : ℤ) < 1500 ∧ trajectoryProgress 1000 1000 1500 = fin 1) ∧
    ((500 : ℤ) < 1000 ∧ trajectoryProgress 1000 1000 500 = fin 0) :=
  ⟨⟨by decide, (C7_zero_window_progress 1000 1500).1 (by decide)⟩,
   ⟨by decide, (C7_zero_window_progress 1000 500).2 (by decide)⟩⟩

/-- The delta is NaN as soon as the heading or the azimuth is NaN. -/
theorem angularDelta_nan (heading moonAzimuth : JSNum)
    (h : heading = nan ∨ moonAzimuth = nan) :
    angularDelta heading moonAzimuth = nan := by
  rcases h with h | h <;> subst h <;> simp [angularDelta, gt]

/-- C8 fails as stated: from LOCKED, a tick with a NaN heading moves the state
to UNLOCKED and fires a disengage effect. -/
theorem C8_nan_unlocks_locked :
    updateCompassUI ⟨nan, fin 103, true⟩
      = (⟨nan, fin 103, false⟩, [Effect.disengage]) ∧
    (updateCompassUI ⟨nan, fin 103, true⟩).1.isLocked ≠ true ∧
    (updateCompassUI ⟨nan, fin 103, true⟩).2 ≠ [] := by
  have h : updateCompassUI ⟨nan, fin 103, true⟩
      = (⟨nan, fin 103, false⟩, [Effect.disengage]) := by
    simp [updateCompassUI, angularDelta_nan, lockStep]
  exact ⟨h, by rw [h]; simp, by rw [h]; simp⟩

/-- C8 amended: on a tick whose heading or azimuth is NaN the delta is NaN, the
tick returns, and the delta is treated as not locked: the lock state after the
tick is UNLOCKED; from UNLOCKED the state is unchanged and no effect is fired,
from LOCKED exactly one disengage is fired; an engage is never fired. -/
theorem C8_nan_is_not_locked (s : AppState)
    (h : s.heading = nan ∨ s.moonAzimuth = nan) :
    angularDelta s.heading s.moonAzimuth = nan ∧
    updateCompassUI s
      = ({ s with isLocked := false },
         if s.isLocked then [Effect.disengage] else []) ∧
    (s.isLocked = false → updateCompassUI s = (s, [])) ∧
    Effect.engage ∉ (updateCompassUI s).2 := by
  have hd := angularDelta_nan s.heading s.moonAzimuth h
  obtain ⟨hd', az, b⟩ := s
  cases b <;> simp [updateCompassUI, hd, lockStep]

/-- C8 amended on a NaN azimuth, from UNLOCKED. -/
theorem C8_nan_is_not_locked_witness :
    ((fin 100 = nan ∨ (nan : JSNum) = nan) ∧
    updateCompassUI ⟨fin 100, nan, false⟩ = (⟨fin 100, nan, false⟩, [])) :=
  ⟨Or.inr rfl, (C8_nan_is_not_locked ⟨fin 100, nan, false⟩ (Or.inr rfl)).2.2.1 rfl⟩


/-- C10 fails as stated: on a 300 by 20 canvas with rise = 0, set = 5 and
now = 1 the progress is the double 0.2 and `drawTrajectory` draws the marker at
x = 60.00000000000001, which is not progress * width, and at
y = 20.000000000000004, which is above height: the marker is outside the
canvas. -/
theorem C10_marker_rounds :
    trajectoryProgress 0 5 1 = fin (3602879701896397 / 18014398509481984) ∧
    (drawTrajectory 300 20 (some 0) (some 5) 1).marker
      = some (fin (8444249301319681 / 140737488355328),
              fin (5629499534213121 / 281474976710656)) ∧
    (8444249301319681 / 140737488355328 : ℚ)
      ≠ 3602879701896397 / 18014398509481984 * 300 ∧
    (20 : ℚ) < 5629499534213121 / 281474976710656 := by
  have ht : trajectoryProgress 0 5 1 = fin (3602879701896397 / 18014398509481984) := by
    have e5 : roundDouble (5 : ℚ) = fin 5 := by
      simpa using roundDouble_intCast 5 (by norm_num)
    have e1 : roundDouble (1 : ℚ) = fin 1 := by
      simpa using roundDouble_intCast 1 (by norm_num)
    have eq : roundDouble ((1 : ℚ) / 5) = fin (3602879701896397 / 18014398509481984) :=
      roundDouble_eq_of_near _ _ (-3) 7205759403792794 (by norm_num) (by norm_num)
        (by norm_num) (by norm_num) (by rw [abs_lt]; constructor <;> norm_num)
        (by norm_num)
    unfold trajectoryProgress
    simp only [sub_fin, Int.cast_zero, Int.cast_one, Int.cast_ofNat, sub_zero, e5, e1]
    rw [div_fin _ _ (by norm_num), eq]
    norm_num
  have hs : sub (fin 1) (fin (3602879701896397 / 18014398509481984)) = fin (3602879701896397 / 4503599627370496) := by
    rw [sub_fin]
    exact roundDouble_eq_of_tie _ _ (-1) 7205759403792794 (by norm_num) (by norm_num)
      (by norm_num) (by norm_num) (by rw [abs_le]; constructor <;> norm_num)
      (by norm_num) (by norm_num)
  have hp : pow2 (fin (3602879701896397 / 4503599627370496)) = fin (1441151880758559 / 2251799813685248) := by
    rw [pow2_fin]
    exact roundDouble_eq_of_near _ _ (-1) 5764607523034236 (by norm_num) (by norm_num)
      (by norm_num) (by norm_num) (by rw [abs_lt]; constructor <;> norm_num)
      (by norm_num)
  have hc1 : mul (fin 2) (fin (3602879701896397 / 4503599627370496)) = fin (3602879701896397 / 2251799813685248) := by
    rw [mul_fin]
    exact roundDouble_eq_of_near _ _ 0 7205759403792794 (by norm_num) (by norm_num)
      (by norm_num) (by norm_num) (by rw [abs_lt]; constructor <;> norm_num)
      (by norm_num)
  have hc2 : mul (fin (3602879701896397 / 2251799813685248)) (fin (3602879701896397 / 18014398509481984)) = fin (1441151880758559 / 4503599627370496) := by
    rw [mul_fin]
    exact roundDouble_eq_of_near _ _ (-2) 5764607523034236 (by norm_num) (by norm_num)
      (by norm_num) (by norm_num) (by rw [abs_lt]; constructor <;> norm_num)
      (by norm_num)
  have hp2 : pow2 (fin (3602879701896397 / 18014398509481984)) = fin (1441151880758559 / 36028797018963968) := by
    rw [pow2_fin]
    exact roundDouble_eq_of_near _ _ (-5) 5764607523034236 (by norm_num) (by norm_num)
      (by norm_num) (by norm_num) (by rw [abs_lt]; constructor <;> norm_num)
      (by norm_num)
  have ha0 : mul (fin (1441151880758559 / 2251799813685248)) (fin 0) = fin 0 := by
    rw [mul_fin]
    norm_num [roundDouble_zero]
  have hhw : div (fin 300) (fin 2) = fin 150 := by
    rw [div_fin _ _ (by norm_num)]
    exact roundDouble_eq_of_near _ _ 7 5277655813324800 (by norm_num) (by norm_num)
      (by norm_num) (by norm_num) (by rw [abs_lt]; constructor <;> norm_num)
      (by norm_num)
  have hc3 : mul (fin (1441151880758559 / 4503599627370496)) (fin 150) = fin (6755399441055745 / 140737488355328) := by
    rw [mul_fin]
    exact roundDouble_eq_of_near _ _ 5 6755399441055745 (by norm_num) (by norm_num)
      (by norm_num) (by norm_num) (by rw [abs_lt]; constructor <;> norm_num)
      (by norm_num)
  have hx1 : add (fin 0) (fin (6755399441055745 / 140737488355328)) = fin (6755399441055745 / 140737488355328) := by
    rw [add_fin]
    exact roundDouble_eq_of_near _ _ 5 6755399441055745 (by norm_num) (by norm_num)
      (by norm_num) (by norm_num) (by rw [abs_lt]; constructor <;> norm_num)
      (by norm_num)
  have ha2 : mul (fin (1441151880758559 / 36028797018963968)) (fin 300) = fin (6755399441055745 / 562949953421312) := by
    rw [mul_fin]
    exact roundDouble_eq_of_near _ _ 3 6755399441055745 (by norm_num) (by norm_num)
      (by norm_num) (by norm_num) (by rw [abs_lt]; constructor <;> norm_num)
      (by norm_num)
  have hx : add (fin (6755399441055745 / 140737488355328)) (fin (6755399441055745 / 562949953421312)) = fin (8444249301319681 / 140737488355328) := by
    rw [add_fin]
    exact roundDouble_eq_of_near _ _ 5 8444249301319681 (by norm_num) (by norm_num)
      (by norm_num) (by norm_num) (by rw [abs_lt]; constructor <;> norm_num)
      (by norm_num)
  have hb0 : mul (fin (1441151880758559 / 2251799813685248)) (fin 20) = fin (7205759403792795 / 562949953421312) := by
    rw [mul_fin]
    exact roundDouble_eq_of_near _ _ 3 7205759403792795 (by norm_num) (by norm_num)
      (by norm_num) (by norm_num) (by rw [abs_lt]; constructor <;> norm_num)
      (by norm_num)
  have hb1 : mul (fin (1441151880758559 / 4503599627370496)) (fin 20) = fin (7205759403792795 / 1125899906842624) := by
    rw [mul_fin]
    exact roundDouble_eq_of_near _ _ 2 7205759403792795 (by norm_num) (by norm_num)
      (by norm_num) (by norm_num) (by rw [abs_lt]; constructor <;> norm_num)
      (by norm_num)
  have hs1 : add (fin (7205759403792795 / 562949953421312)) (fin (7205759403792795 / 1125899906842624)) = fin (1351079888211149 / 70368744177664) := by
    rw [add_fin]
    exact roundDouble_eq_of_near _ _ 4 5404319552844596 (by norm_num) (by norm_num)
      (by norm_num) (by norm_num) (by rw [abs_lt]; constructor <;> norm_num)
      (by norm_num)
  have hb2 : mul (fin (1441151880758559 / 36028797018963968)) (fin 20) = fin (7205759403792795 / 9007199254740992) := by
    rw [mul_fin]
    exact roundDouble_eq_of_near _ _ (-1) 7205759403792795 (by norm_num) (by norm_num)
      (by norm_num) (by norm_num) (by rw [abs_lt]; constructor <;> norm_num)
      (by norm_num)
  have hy : add (fin (1351079888211149 / 70368744177664)) (fin (7205759403792795 / 9007199254740992)) = fin (5629499534213121 / 281474976710656) := by
    rw [add_fin]
    exact roundDouble_eq_of_near _ _ 4 5629499534213121 (by norm_num) (by norm_num)
      (by norm_num) (by norm_num) (by rw [abs_lt]; constructor <;> norm_num)
      (by norm_num)
  refine ⟨ht, ?_, by norm_num, by norm_num⟩
  simp only [drawTrajectory, ht, markerX, markerY, Nat.cast_ofNat]
  rw [hs, hp, hc1, hc2, hp2, ha0, hhw, hc3, hx1, ha2, hx, hb0, hb1, hs1, hb2, hy]


/-- The rounding error of an exact result of magnitude at most B, for a bound
B not below the least normal double, is at most B / 2^53. -/
theorem abs_roundValue_sub_le_of_le {q B : ℚ} (hB1 : 1 / 2 ^ 1022 ≤ B) (h : |q| ≤ B) :
    |roundValue q - q| ≤ B / 2 ^ 53 := by
  have hBpos : 0 < B := lt_of_lt_of_le (by positivity) hB1
  rcases eq_or_ne q 0 with h0 | h0
  · subst h0
    rw [roundValue_zero]
    simp
    positivity
  have ha : 0 < |q| := abs_pos.mpr h0
  have h1 := abs_roundValue_sub_le (q := q) (E := binade |q|) (binade_ge _)
    (lt_two_zpow_binade_succ |q|)
  have h2 : (2 : ℚ) ^ (binade |q|) ≤ B := by
    unfold binade
    rcases le_total (Int.log 2 |q|) (-1022) with hl | hl
    · rw [max_eq_right hl]
      have : (2 : ℚ) ^ (-1022 : ℤ) = 1 / 2 ^ 1022 := by
        rw [zpow_neg]; norm_num
      rw [this]; exact hB1
    · rw [max_eq_left hl]
      have := Int.zpow_log_le_self (b := 2) (by norm_num) ha
      exact le_trans (by exact_mod_cast this) h
  have h3 : (2 : ℚ) ^ (binade |q| - 53) = (2 : ℚ) ^ (binade |q|) / 2 ^ 53 := by
    rw [zpow_sub₀ (by norm_num)]
    norm_num
  rw [h3] at h1
  exact le_trans h1 (div_le_div_of_nonneg_right h2 (by positivity))

/-- One arithmetic step on a nonnegative exact result bounded by a double B:
the rounded result is finite, stays in [0, B] and is within B / 2^53 of the
exact result. -/
theorem round_step {q B : ℚ} (hB : roundValue B = B) (hB2 : B < (2 : ℚ) ^ 1024)
    (hB1 : 1 / 2 ^ 1022 ≤ B) (h0 : 0 ≤ q) (h : q ≤ B) :
    roundDouble q = fin (roundValue q) ∧ 0 ≤ roundValue q ∧ roundValue q ≤ B ∧
      |roundValue q - q| ≤ B / 2 ^ 53 := by
  have habs : |q| ≤ B := by rw [abs_of_nonneg h0]; exact h
  refine ⟨roundDouble_of_abs_le hB hB2 habs, roundValue_nonneg h0, ?_,
    abs_roundValue_sub_le_of_le hB1 habs⟩
  have := roundValue_mono h
  rwa [hB] at this

/-- The step lemma for a bound between 1 and 2^40. -/
theorem round_step_small {q B : ℚ} (hB : roundValue B = B) (hB1 : 1 ≤ B)
    (hB2 : B ≤ 2 ^ 40) (h0 : 0 ≤ q) (h : q ≤ B) :
    roundDouble q = fin (roundValue q) ∧ 0 ≤ roundValue q ∧ roundValue q ≤ B ∧
      |roundValue q - q| ≤ B / 2 ^ 53 :=
  round_step hB (lt_of_le_of_lt hB2 (by norm_num)) (le_trans (by norm_num) hB1) h0 h

theorem abs_mul_le_mul {d m ε M : ℚ} (hd : |d| ≤ ε) (hm0 : 0 ≤ m) (hm : m ≤ M) :
    |d * m| ≤ ε * M := by
  rw [abs_mul, abs_of_nonneg hm0]
  exact mul_le_mul hd hm hm0 (le_trans (abs_nonneg _) hd)


/-- The three coefficients of lines 294-295 for a progress t in [0,1]:
`Math.pow(1 - t, 2)`, `2 * (1 - t) * t` and `Math.pow(t, 2)` are finite, in
range, and within a few units of 2^-53 of their exact values. -/
theorem marker_coeffs (t : ℚ) (ht0 : 0 ≤ t) (ht1 : t ≤ 1) :
    ∃ p c p2 : ℚ,
      pow2 (sub (fin 1) (fin t)) = fin p ∧
      mul (mul (fin 2) (sub (fin 1) (fin t))) (fin t) = fin c ∧
      pow2 (fin t) = fin p2 ∧
      (0 ≤ p ∧ p ≤ 1 ∧ |p - (1 - t) ^ 2| ≤ 3 / 2 ^ 53) ∧
      (0 ≤ c ∧ c ≤ 2 ∧ |c - 2 * (1 - t) * t| ≤ 6 / 2 ^ 53) ∧
      (0 ≤ p2 ∧ p2 ≤ 1 ∧ |p2 - t ^ 2| ≤ 1 / 2 ^ 53) := by
  have r1 : roundValue 1 = 1 := by
    simpa using roundValue_intCast 1 (by norm_num)
  have r2 : roundValue 2 = 2 := by
    simpa using roundValue_intCast 2 (by norm_num)
  have hs := round_step_small (q := 1 - t) r1 le_rfl (by norm_num) (by linarith) (by linarith)
  generalize roundValue (1 - t) = s at hs
  obtain ⟨es, s0, s1, serr⟩ := hs
  have hp := round_step_small (q := s ^ 2) r1 le_rfl (by norm_num) (by positivity) (by nlinarith)
  generalize roundValue (s ^ 2) = p at hp
  obtain ⟨ep, p0, p1, perr⟩ := hp
  have hc1 := round_step_small (q := 2 * s) r2 (by norm_num) (by norm_num) (by positivity) (by linarith)
  generalize roundValue (2 * s) = c1 at hc1
  obtain ⟨ec1, c10, c11, c1err⟩ := hc1
  have hc2 := round_step_small (q := c1 * t) r2 (by norm_num) (by norm_num) (by positivity) (by nlinarith)
  generalize roundValue (c1 * t) = c at hc2
  obtain ⟨ec2, c0, c2, cerr⟩ := hc2
  have hp2 := round_step_small (q := t ^ 2) r1 le_rfl (by norm_num) (by positivity) (by nlinarith)
  generalize roundValue (t ^ 2) = p2 at hp2
  obtain ⟨ep2, p20, p21, p2err⟩ := hp2
  refine ⟨p, c, p2, ?_, ?_, ?_, ⟨p0, p1, ?_⟩, ⟨c0, c2, ?_⟩, ⟨p20, p21, ?_⟩⟩
  · rw [sub_fin, es, pow2_fin, ep]
  · rw [sub_fin, es, mul_fin, ec1, mul_fin, ec2]
  · rw [pow2_fin, ep2]
  · have h1 : |(s - (1 - t)) * (s + (1 - t))| ≤ 1 / 2 ^ 53 * 2 :=
      abs_mul_le_mul serr (by linarith) (by linarith)
    have e : p - (1 - t) ^ 2 = (p - s ^ 2) + (s - (1 - t)) * (s + (1 - t)) := by ring
    rw [e]
    refine le_trans (abs_add _ _) ?_
    linarith
  · have h1 : |(s - (1 - t)) * 2| ≤ 1 / 2 ^ 53 * 2 :=
      abs_mul_le_mul serr (by norm_num) le_rfl
    have h2 : |c1 - 2 * (1 - t)| ≤ 4 / 2 ^ 53 := by
      have e : c1 - 2 * (1 - t) = (c1 - 2 * s) + (s - (1 - t)) * 2 := by ring
      rw [e]
      refine le_trans (abs_add _ _) ?_
      linarith
    have h3 : |(c1 - 2 * (1 - t)) * t| ≤ 4 / 2 ^ 53 * 1 :=
      abs_mul_le_mul h2 ht0 ht1
    have e : c - 2 * (1 - t) * t = (c - c1 * t) + (c1 - 2 * (1 - t)) * t := by ring
    rw [e]
    refine le_trans (abs_add _ _) ?_
    linarith
  · simpa using p2err


/-- The marker abscissa for an integer width below 2^31 and a progress in
[0,1]: finite, nonnegative, and within width / 2^49 of progress * width. -/
theorem markerX_accuracy (w : ℕ) (t : ℚ) (hw : w < 2 ^ 31) (ht0 : 0 ≤ t) (ht1 : t ≤ 1) :
    ∃ x : ℚ, markerX (fin (w : ℚ)) (fin t) = fin x ∧ 0 ≤ x ∧
      |x - t * w| ≤ (w : ℚ) / 2 ^ 49 := by
  obtain ⟨p, c, p2, ep, ec, ep2, ⟨p0, p1, perr⟩, ⟨c0, c2, cerr⟩, ⟨p20, p21, p2err⟩⟩ :=
    marker_coeffs t ht0 ht1
  have hW31 : (w : ℚ) < 2 ^ 31 := by exact_mod_cast hw
  have ea0 : mul (fin p) (fin 0) = fin 0 := by
    rw [mul_fin, mul_zero, roundDouble_zero]
  have ehw : div (fin (w : ℚ)) (fin 2) = fin ((w : ℚ) / 2) := by
    rw [div_fin _ _ (by norm_num)]
    apply roundDouble_exact _ (w : ℤ) 1 _ (by norm_num) (by push_cast; ring)
    rw [abs_lt]; constructor <;> omega
  unfold markerX
  rw [ep, ec, ep2, ea0, ehw]
  rcases Nat.eq_zero_or_pos w with hz | hpos
  · subst hz
    refine ⟨0, ?_, le_rfl, by simp⟩
    simp [roundDouble_zero]
  have hW1 : (1 : ℚ) ≤ w := by exact_mod_cast hpos
  have rW : roundValue (w : ℚ) = w := by
    have := roundValue_intCast (w : ℤ) (by rw [abs_lt]; constructor <;> omega)
    simpa using this
  have r2W : roundValue (2 * (w : ℚ)) = 2 * w := by
    have := roundValue_intCast (2 * (w : ℤ)) (by rw [abs_lt]; constructor <;> omega)
    simpa using this
  have bW : (w : ℚ) ≤ 2 ^ 40 := by linarith
  have b2W : 2 * (w : ℚ) ≤ 2 ^ 40 := by linarith
  have n2W : (1 : ℚ) ≤ 2 * w := by linarith
  have hc3 := round_step_small (q := c * ((w : ℚ) / 2)) rW hW1 bW (by positivity) (by nlinarith)
  generalize roundValue (c * ((w : ℚ) / 2)) = c3 at hc3
  obtain ⟨ec3, c30, c31, c3err⟩ := hc3
  have hx1 := round_step_small (q := 0 + c3) rW hW1 bW (by linarith) (by linarith)
  generalize roundValue (0 + c3) = x1 at hx1
  obtain ⟨ex1, x10, x11, x1err⟩ := hx1
  have ha2 := round_step_small (q := p2 * (w : ℚ)) rW hW1 bW (by positivity) (by nlinarith)
  generalize roundValue (p2 * (w : ℚ)) = a2 at ha2
  obtain ⟨ea2, a20, a21, a2err⟩ := ha2
  have hx := round_step_small (q := x1 + a2) r2W n2W b2W (by linarith) (by linarith)
  generalize roundValue (x1 + a2) = x at hx
  obtain ⟨ex, hx0, -, xerr⟩ := hx
  refine ⟨x, ?_, hx0, ?_⟩
  · rw [mul_fin, ec3, add_fin, ex1, mul_fin, ea2, add_fin, ex]
  · have h1 : |(c - 2 * (1 - t) * t) * ((w : ℚ) / 2)| ≤ 6 / 2 ^ 53 * ((w : ℚ) / 2) :=
      abs_mul_le_mul cerr (by positivity) le_rfl
    have h2 : |(p2 - t ^ 2) * (w : ℚ)| ≤ 1 / 2 ^ 53 * (w : ℚ) :=
      abs_mul_le_mul p2err (by positivity) le_rfl
    have e : x - t * w
        = (x - (x1 + a2)) + (x1 - (0 + c3)) + (c3 - c * ((w : ℚ) / 2))
          + (c - 2 * (1 - t) * t) * ((w : ℚ) / 2)
          + (a2 - p2 * (w : ℚ)) + (p2 - t ^ 2) * (w : ℚ) := by ring
    rw [e]
    rw [abs_le] at xerr x1err c3err h1 a2err h2 ⊢
    constructor <;> linarith

/-- The marker ordinate for an integer height below 2^31 and a progress in
[0,1]: finite, nonnegative, and within (height + 20) / 2^48 of
height - 2t(1-t)(height - 20). -/
theorem markerY_accuracy (h : ℕ) (t : ℚ) (hh : h < 2 ^ 31)
    (ht0 : 0 ≤ t) (ht1 : t ≤ 1) :
    ∃ y : ℚ, markerY (fin (h : ℚ)) (fin t) = fin y ∧ 0 ≤ y ∧
      |y - ((h : ℚ) - 2 * t * (1 - t) * ((h : ℚ) - 20))| ≤ ((h : ℚ) + 20) / 2 ^ 48 := by
  obtain ⟨p, c, p2, ep, ec, ep2, ⟨p0, p1, perr⟩, ⟨c0, c2, cerr⟩, ⟨p20, p21, p2err⟩⟩ :=
    marker_coeffs t ht0 ht1
  have hH31 : (h : ℚ) < 2 ^ 31 := by exact_mod_cast hh
  have hH0 : (0 : ℚ) ≤ h := by positivity
  unfold markerY
  rw [ep, ec, ep2]
  have rH20 : roundValue ((h : ℚ) + 20) = h + 20 := by
    have := roundValue_intCast ((h : ℤ) + 20) (by rw [abs_lt]; constructor <;> omega)
    simpa using this
  have r40 : roundValue 40 = 40 := by
    simpa using roundValue_intCast 40 (by norm_num)
  have rH60 : roundValue ((h : ℚ) + 60) = h + 60 := by
    have := roundValue_intCast ((h : ℤ) + 60) (by rw [abs_lt]; constructor <;> omega)
    simpa using this
  have r2H80 : roundValue (2 * (h : ℚ) + 80) = 2 * h + 80 := by
    have := roundValue_intCast (2 * (h : ℤ) + 80) (by rw [abs_lt]; constructor <;> omega)
    simpa using this
  have nH20 : (1 : ℚ) ≤ (h : ℚ) + 20 := by linarith
  have bH20 : (h : ℚ) + 20 ≤ 2 ^ 40 := by linarith
  have nH60 : (1 : ℚ) ≤ (h : ℚ) + 60 := by linarith
  have bH60 : (h : ℚ) + 60 ≤ 2 ^ 40 := by linarith
  have n2H80 : (1 : ℚ) ≤ 2 * (h : ℚ) + 80 := by linarith
  have b2H80 : 2 * (h : ℚ) + 80 ≤ 2 ^ 40 := by linarith
  have hb0 := round_step_small (q := p * (h : ℚ)) rH20 nH20 bH20 (by positivity)
    (by nlinarith)
  generalize roundValue (p * (h : ℚ)) = b0 at hb0
  obtain ⟨eb0, b00, b01, b0err⟩ := hb0
  have hb1 := round_step_small (q := c * 20) r40 (by norm_num) (by norm_num)
    (by positivity) (by linarith)
  generalize roundValue (c * 20) = b1 at hb1
  obtain ⟨eb1, b10, b11, b1err⟩ := hb1
  have hs1 := round_step_small (q := b0 + b1) rH60 nH60 bH60 (by linarith) (by linarith)
  generalize roundValue (b0 + b1) = s1 at hs1
  obtain ⟨es1, s10, s11, s1err⟩ := hs1
  have hb2 := round_step_small (q := p2 * (h : ℚ)) rH20 nH20 bH20 (by positivity)
    (by nlinarith)
  generalize roundValue (p2 * (h : ℚ)) = b2 at hb2
  obtain ⟨eb2, b20, b21, b2err⟩ := hb2
  have hy := round_step_small (q := s1 + b2) r2H80 n2H80 b2H80 (by linarith) (by linarith)
  generalize roundValue (s1 + b2) = y at hy
  obtain ⟨ey, hy0, -, yerr⟩ := hy
  refine ⟨y, ?_, hy0, ?_⟩
  · rw [mul_fin, eb0, mul_fin, eb1, add_fin, es1, mul_fin, eb2, add_fin, ey]
  · have h1 : |(p - (1 - t) ^ 2) * (h : ℚ)| ≤ 3 / 2 ^ 53 * (h : ℚ) :=
      abs_mul_le_mul perr (by positivity) le_rfl
    have h2 : |(c - 2 * (1 - t) * t) * 20| ≤ 6 / 2 ^ 53 * 20 :=
      abs_mul_le_mul cerr (by norm_num) le_rfl
    have h3 : |(p2 - t ^ 2) * (h : ℚ)| ≤ 1 / 2 ^ 53 * (h : ℚ) :=
      abs_mul_le_mul p2err (by positivity) le_rfl
    have e : y - ((h : ℚ) - 2 * t * (1 - t) * ((h : ℚ) - 20))
        = (y - (s1 + b2)) + (s1 - (b0 + b1)) + (b0 - p * (h : ℚ))
          + (p - (1 - t) ^ 2) * (h : ℚ) + (b1 - c * 20)
          + (c - 2 * (1 - t) * t) * 20
          + (b2 - p2 * (h : ℚ)) + (p2 - t ^ 2) * (h : ℚ) := by ring
    rw [e]
    rw [abs_le] at yerr s1err b0err h1 b1err h2 b2err h3 ⊢
    constructor <;> linarith


/-- An exact result equal to a dyadic value n / 2 ^ k with |n| < 2 ^ 53 is not
changed by rounding. -/
theorem roundDouble_eq_of_exact (q v : ℚ) (n : ℤ) (k : ℕ) (hn : |n| < 2 ^ 53)
    (hk : k ≤ 1074) (hq : q = v) (h : v * 2 ^ k = n) : roundDouble q = fin v := by
  rw [hq]
  exact roundDouble_exact v n k hn hk h

/-- The marker at progress 1/2 for integer width and height below 2^31: every
operation of lines 294-295 is exact. -/
theorem marker_at_half (w h : ℕ) (hw : w < 2 ^ 31) (hh : h < 2 ^ 31) :
    markerX (fin (w : ℚ)) (fin (1 / 2)) = fin ((w : ℚ) / 2) ∧
    markerY (fin (h : ℚ)) (fin (1 / 2)) = fin (((h : ℚ) + 20) / 2) := by
  have hwz : |(w : ℤ)| < 2 ^ 53 := by rw [abs_lt]; constructor <;> omega
  have hhz : |(h : ℤ)| < 2 ^ 53 := by rw [abs_lt]; constructor <;> omega
  have hs : sub (fin 1) (fin (1 / 2)) = fin (1 / 2) := by
    rw [sub_fin]
    exact roundDouble_eq_of_exact _ _ 1 1 (by norm_num) (by norm_num) (by norm_num)
      (by norm_num)
  have hp : pow2 (fin (1 / 2)) = fin (1 / 4) := by
    rw [pow2_fin]
    exact roundDouble_eq_of_exact _ _ 1 2 (by norm_num) (by norm_num) (by norm_num)
      (by norm_num)
  have hc1 : mul (fin 2) (fin (1 / 2)) = fin 1 := by
    rw [mul_fin]
    exact roundDouble_eq_of_exact _ _ 1 0 (by norm_num) (by norm_num) (by norm_num)
      (by norm_num)
  have hc2 : mul (fin 1) (fin (1 / 2)) = fin (1 / 2) := by
    rw [mul_fin]
    exact roundDouble_eq_of_exact _ _ 1 1 (by norm_num) (by norm_num) (by norm_num)
      (by norm_num)
  have hquarter : ∀ n : ℕ, n < 2 ^ 31 →
      mul (fin (1 / 4)) (fin (n : ℚ)) = fin ((n : ℚ) / 4) := by
    intro n hn
    rw [mul_fin]
    exact roundDouble_eq_of_exact _ _ (n : ℤ) 2 (by rw [abs_lt]; constructor <;> omega)
      (by norm_num) (by ring) (by push_cast; ring)
  constructor
  · have ha0 : mul (fin (1 / 4)) (fin 0) = fin 0 := by
      rw [mul_fin, mul_zero, roundDouble_zero]
    have hhw : div (fin (w : ℚ)) (fin 2) = fin ((w : ℚ) / 2) := by
      rw [div_fin _ _ (by norm_num)]
      exact roundDouble_eq_of_exact _ _ (w : ℤ) 1 hwz (by norm_num) rfl
        (by push_cast; ring)
    have hc3 : mul (fin (1 / 2)) (fin ((w : ℚ) / 2)) = fin ((w : ℚ) / 4) := by
      rw [mul_fin]
      exact roundDouble_eq_of_exact _ _ (w : ℤ) 2 hwz (by norm_num) (by ring)
        (by push_cast; ring)
    have hx1 : add (fin 0) (fin ((w : ℚ) / 4)) = fin ((w : ℚ) / 4) := by
      rw [add_fin]
      exact roundDouble_eq_of_exact _ _ (w : ℤ) 2 hwz (by norm_num) (by ring)
        (by push_cast; ring)
    have hx : add (fin ((w : ℚ) / 4)) (fin ((w : ℚ) / 4)) = fin ((w : ℚ) / 2) := by
      rw [add_fin]
      exact roundDouble_eq_of_exact _ _ (w : ℤ) 1 hwz (by norm_num) (by ring)
        (by push_cast; ring)
    unfold markerX
    rw [hs, hp, ha0, hc1, hc2, hhw, hc3, hx1, hquarter w hw, hx]
  · have hb1 : mul (fin (1 / 2)) (fin 20) = fin 10 := by
      rw [mul_fin]
      exact roundDouble_eq_of_exact _ _ 10 0 (by norm_num) (by norm_num) (by norm_num)
        (by norm_num)
    have hs1 : add (fin ((h : ℚ) / 4)) (fin 10) = fin ((h : ℚ) / 4 + 10) := by
      rw [add_fin]
      exact roundDouble_eq_of_exact _ _ ((h : ℤ) + 40) 2
        (by rw [abs_lt]; constructor <;> omega) (by norm_num) rfl (by push_cast; ring)
    have hy : add (fin ((h : ℚ) / 4 + 10)) (fin ((h : ℚ) / 4))
        = fin (((h : ℚ) + 20) / 2) := by
      rw [add_fin]
      exact roundDouble_eq_of_exact _ _ ((h : ℤ) + 20) 1
        (by rw [abs_lt]; constructor <;> omega) (by norm_num) (by ring)
        (by push_cast; ring)
    unfold markerY
    rw [hs, hp, hquarter h hh, hc1, hc2, hb1, hs1, hy]

/-- The progress half way through a window of two hours is exactly 1/2. -/
theorem trajectoryProgress_half (T0 : ℤ) :
    trajectoryProgress T0 (T0 + 7200000) (T0 + 3600000) = fin (1 / 2) := by
  have e1 : sub (fin ((T0 + 7200000 : ℤ) : ℚ)) (fin (T0 : ℚ)) = fin 7200000 := by
    rw [sub_fin]
    exact roundDouble_eq_of_exact _ _ 7200000 0 (by norm_num) (by norm_num)
      (by push_cast; ring) (by norm_num)
  have e2 : sub (fin ((T0 + 3600000 : ℤ) : ℚ)) (fin (T0 : ℚ)) = fin 3600000 := by
    rw [sub_fin]
    exact roundDouble_eq_of_exact _ _ 3600000 0 (by norm_num) (by norm_num)
      (by push_cast; ring) (by norm_num)
  have e3 : div (fin 3600000) (fin 7200000) = fin (1 / 2) := by
    rw [div_fin _ _ (by norm_num)]
    exact roundDouble_eq_of_exact _ _ 1 1 (by norm_num) (by norm_num) (by norm_num)
      (by norm_num)
  unfold trajectoryProgress
  simp only [e1, e2, e3]
  norm_num


/-- The marker at progress 0 and at progress 1 for integer width and height
below 2^31: every operation of lines 294-295 is exact. -/
theorem marker_at_ends (w h : ℕ) (hw : w < 2 ^ 31) (hh : h < 2 ^ 31) :
    markerX (fin (w : ℚ)) (fin 0) = fin 0 ∧
    markerY (fin (h : ℚ)) (fin 0) = fin (h : ℚ) ∧
    markerX (fin (w : ℚ)) (fin 1) = fin (w : ℚ) ∧
    markerY (fin (h : ℚ)) (fin 1) = fin (h : ℚ) := by
  have r0 := roundDouble_zero
  have r1 : roundDouble 1 = fin 1 := by
    simpa using roundDouble_intCast 1 (by norm_num)
  have r2 : roundDouble 2 = fin 2 := by
    simpa using roundDouble_intCast 2 (by norm_num)
  have rW : roundDouble (w : ℚ) = fin (w : ℚ) := by
    simpa using roundDouble_intCast (w : ℤ) (by rw [abs_lt]; constructor <;> omega)
  have rH : roundDouble (h : ℚ) = fin (h : ℚ) := by
    simpa using roundDouble_intCast (h : ℤ) (by rw [abs_lt]; constructor <;> omega)
  have rW2 : div (fin (w : ℚ)) (fin 2) = fin ((w : ℚ) / 2) := by
    rw [div_fin _ _ (by norm_num)]
    exact roundDouble_eq_of_exact _ _ (w : ℤ) 1 (by rw [abs_lt]; constructor <;> omega)
      (by norm_num) rfl (by push_cast; ring)
  refine ⟨?_, ?_, ?_, ?_⟩
  · unfold markerX
    rw [rW2]
    simp [r0, r1, r2]
  · unfold markerY
    simp [r0, r1, r2, rH]
  · unfold markerX
    rw [rW2]
    simp [r0, r1, r2, rW]
  · unfold markerY
    simp [r0, r1, r2, rH]

/-- C9: the arc of `drawTrajectory` has P0 = (0, height), C = (width/2, 20),
P2 = (width, height); the marker coordinates are the quadratic Bezier
q(t) = (1-t)^2 P0 + 2(1-t)t C + t^2 P2 of these points, evaluated by lines
294-295 in double arithmetic at the progress, and for a progress in [0,1]
within width / 2^49 and (height + 20) / 2^48 of the exact value of that
polynomial; at progress 0.5 (rise = T0, set = T0 + 2h, now = T0 + 1h, in
milliseconds) the marker is exactly at x = width/2, y = (height + 20)/2.
Width and height are `clientWidth` and `clientHeight`, integers below 2^31. -/
theorem C9_marker_is_bezier (w h : ℕ) (hw : w < 2 ^ 31) (hh : h < 2 ^ 31) :
    (∀ (rise set : Option ℤ) (now : ℤ),
      (drawTrajectory w h rise set now).arcStart = (fin 0, fin (h : ℚ)) ∧
      (drawTrajectory w h rise set now).arcControl = (fin ((w : ℚ) / 2), fin 20) ∧
      (drawTrajectory w h rise set now).arcEnd = (fin (w : ℚ), fin (h : ℚ))) ∧
    (∀ (r s now : ℤ),
      (drawTrajectory w h (some r) (some s) now).marker
        = some (specBezierJS (fin 0) (fin ((w : ℚ) / 2)) (fin (w : ℚ))
                  (trajectoryProgress r s now),
                specBezierJS (fin (h : ℚ)) (fin 20) (fin (h : ℚ))
                  (trajectoryProgress r s now))) ∧
    (∀ t : ℚ, 0 ≤ t → t ≤ 1 →
      ∃ x y : ℚ,
        specBezierJS (fin 0) (fin ((w : ℚ) / 2)) (fin (w : ℚ)) (fin t) = fin x ∧
        specBezierJS (fin (h : ℚ)) (fin 20) (fin (h : ℚ)) (fin t) = fin y ∧
        |x - specBezier 0 ((w : ℚ) / 2) w t| ≤ (w : ℚ) / 2 ^ 49 ∧
        |y - specBezier h 20 h t| ≤ ((h : ℚ) + 20) / 2 ^ 48) ∧
    (∀ T0 : ℤ,
      trajectoryProgress T0 (T0 + 7200000) (T0 + 3600000) = fin (1 / 2) ∧
      (drawTrajectory w h (some T0) (some (T0 + 7200000)) (T0 + 3600000)).marker
        = some (fin ((w : ℚ) / 2), fin (((h : ℚ) + 20) / 2))) := by
  have rW2 : div (fin (w : ℚ)) (fin 2) = fin ((w : ℚ) / 2) := by
    rw [div_fin _ _ (by norm_num)]
    exact roundDouble_eq_of_exact _ _ (w : ℤ) 1 (by rw [abs_lt]; constructor <;> omega)
      (by norm_num) rfl (by push_cast; ring)
  have hX : ∀ t : JSNum, specBezierJS (fin 0) (fin ((w : ℚ) / 2)) (fin (w : ℚ)) t
      = markerX (fin (w : ℚ)) t := by
    intro t
    unfold specBezierJS markerX
    rw [rW2]
  have hY : ∀ t : JSNum, specBezierJS (fin (h : ℚ)) (fin 20) (fin (h : ℚ)) t
      = markerY (fin (h : ℚ)) t := fun t => rfl
  refine ⟨?_, ?_, ?_, ?_⟩
  · intro rise set now
    exact ⟨rfl, by simp [drawTrajectory, rW2], rfl⟩
  · intro r s now
    rw [hX, hY]
    rfl
  · intro t ht0 ht1
    obtain ⟨x, ex, -, hx⟩ := markerX_accuracy w t hw ht0 ht1
    obtain ⟨y, ey, -, hy⟩ := markerY_accuracy h t hh ht0 ht1
    refine ⟨x, y, by rw [hX, ex], by rw [hY, ey], ?_, ?_⟩
    · have e : specBezier 0 ((w : ℚ) / 2) w t = t * w := by
        unfold specBezier; ring
      rw [e]; exact hx
    · have e : specBezier h 20 h t = (h : ℚ) - 2 * t * (1 - t) * ((h : ℚ) - 20) := by
        unfold specBezier; ring
      rw [e]; exact hy
  · intro T0
    have ht := trajectoryProgress_half T0
    obtain ⟨mx, my⟩ := marker_at_half w h hw hh
    refine ⟨ht, ?_⟩
    simp only [drawTrajectory, ht, mx, my]

/-- C9 on a 300 by 150 canvas with rise = 0, set = 2h and now = 1h: the progress
is 0.5 and the marker is at (150, 85). -/
theorem C9_marker_is_bezier_witness :
    ((300 : ℕ) < 2 ^ 31 ∧ (150 : ℕ) < 2 ^ 31) ∧
    trajectoryProgress 0 (0 + 7200000) (0 + 3600000) = fin (1 / 2) ∧
    (drawTrajectory 300 150 (some 0) (some (0 + 7200000)) (0 + 3600000)).marker
      = some (fin (((300 : ℕ) : ℚ) / 2), fin ((((150 : ℕ) : ℚ) + 20) / 2)) :=
  ⟨⟨by norm_num, by norm_num⟩,
   (C9_marker_is_bezier 300 150 (by norm_num) (by norm_num)).2.2.2 0⟩

/-- C10 amended: for every integer width in [0, 2^31), integer height in
[20, 2^31) and progress t in [0,1], the marker of `drawTrajectory` is finite
and agrees with x = t * width and y = height - 2t(1-t)(height - 20) up to the
rounding of lines 294-295: |x - t * width| <= width / 2^49 and
|y - (height - 2t(1-t)(height - 20))| <= (height + 20) / 2^48.  Hence
0 <= x <= width + width / 2^49 and
(height + 20)/2 - (height + 20)/2^48 <= y <= height + (height + 20)/2^48, and
x decreases by at most width / 2^48 when t grows.  At t = 0 the marker is
exactly (0, height) and at t = 1 exactly (width, height).  On a window of valid
dates with rise < set the progress is such a t and the marker drawn is that
point. -/
theorem C10_marker_near_canvas (w h : ℕ) (t : ℚ)
    (hw : w < 2 ^ 31) (hh20 : 20 ≤ h) (hh : h < 2 ^ 31) (ht0 : 0 ≤ t) (ht1 : t ≤ 1) :
    (∃ x y : ℚ,
      markerX (fin (w : ℚ)) (fin t) = fin x ∧ markerY (fin (h : ℚ)) (fin t) = fin y ∧
      |x - t * w| ≤ (w : ℚ) / 2 ^ 49 ∧ 0 ≤ x ∧ x ≤ (w : ℚ) + (w : ℚ) / 2 ^ 49 ∧
      |y - ((h : ℚ) - 2 * t * (1 - t) * ((h : ℚ) - 20))| ≤ ((h : ℚ) + 20) / 2 ^ 48 ∧
      ((h : ℚ) + 20) / 2 - ((h : ℚ) + 20) / 2 ^ 48 ≤ y ∧
      y ≤ (h : ℚ) + ((h : ℚ) + 20) / 2 ^ 48 ∧
      (∀ u : ℚ, t ≤ u → u ≤ 1 →
        ∃ x2 : ℚ, markerX (fin (w : ℚ)) (fin u) = fin x2 ∧ x ≤ x2 + (w : ℚ) / 2 ^ 48)) ∧
    markerX (fin (w : ℚ)) (fin 0) = fin 0 ∧
    markerY (fin (h : ℚ)) (fin 0) = fin (h : ℚ) ∧
    markerX (fin (w : ℚ)) (fin 1) = fin (w : ℚ) ∧
    markerY (fin (h : ℚ)) (fin 1) = fin (h : ℚ) ∧
    (∀ r s now : ℤ, isTimeValue r → isTimeValue s → isTimeValue now → r < s →
      ∃ p x y : ℚ, 0 ≤ p ∧ p ≤ 1 ∧ trajectoryProgress r s now = fin p ∧
        (drawTrajectory w h (some r) (some s) now).marker = some (fin x, fin y) ∧
        |x - p * w| ≤ (w : ℚ) / 2 ^ 49 ∧
        |y - ((h : ℚ) - 2 * p * (1 - p) * ((h : ℚ) - 20))| ≤ ((h : ℚ) + 20) / 2 ^ 48) := by
  have hW0 : (0 : ℚ) ≤ w := by positivity
  have hH20 : (20 : ℚ) ≤ h := by exact_mod_cast hh20
  obtain ⟨e1, e2, e3, e4⟩ := marker_at_ends w h hw hh
  refine ⟨?_, e1, e2, e3, e4, ?_⟩
  · obtain ⟨x, ex, x0, hx⟩ := markerX_accuracy w t hw ht0 ht1
    obtain ⟨y, ey, -, hy⟩ := markerY_accuracy h t hh ht0 ht1
    have h1t : 0 ≤ 1 - t := by linarith
    refine ⟨x, y, ex, ey, hx, x0, ?_, hy, ?_, ?_, ?_⟩
    · rw [abs_le] at hx
      nlinarith [mul_nonneg h1t hW0]
    · rw [abs_le] at hy
      nlinarith [mul_nonneg (sq_nonneg (2 * t - 1)) (show (0 : ℚ) ≤ (h : ℚ) - 20 by linarith)]
    · rw [abs_le] at hy
      nlinarith [mul_nonneg (mul_nonneg ht0 h1t) (show (0 : ℚ) ≤ (h : ℚ) - 20 by linarith)]
    · intro u htu hu1
      obtain ⟨x2, ex2, -, hx2⟩ := markerX_accuracy w u hw (le_trans ht0 htu) hu1
      refine ⟨x2, ex2, ?_⟩
      rw [abs_le] at hx hx2
      have := mul_le_mul_of_nonneg_right htu hW0
      have e : (w : ℚ) / 2 ^ 48 = (w : ℚ) / 2 ^ 49 + (w : ℚ) / 2 ^ 49 := by ring
      rw [e]
      linarith
  · intro r s now hr hs hnow hrs
    obtain ⟨q, p, -, -, hp, -, p0, p1, -, -⟩ := trajectoryProgress_of_lt r s now hr hs hnow hrs
    obtain ⟨x, ex, -, hx⟩ := markerX_accuracy w p hw p0 p1
    obtain ⟨y, ey, -, hy⟩ := markerY_accuracy h p hh p0 p1
    refine ⟨p, x, y, p0, p1, hp, ?_, hx, hy⟩
    simp only [drawTrajectory, hp, ex, ey]

/-- C10 amended on a 300 by 150 canvas at progress 1/4: the marker abscissa is
finite and within 300 / 2^49 of 75. -/
theorem C10_marker_near_canvas_witness :
    ((300 : ℕ) < 2 ^ 31 ∧ (20 : ℕ) ≤ 150 ∧ (150 : ℕ) < 2 ^ 31 ∧
      (0 : ℚ) ≤ 1 / 4 ∧ (1 / 4 : ℚ) ≤ 1) ∧
    ∃ x : ℚ, markerX (fin ((300 : ℕ) : ℚ)) (fin (1 / 4)) = fin x ∧
      |x - 1 / 4 * ((300 : ℕ) : ℚ)| ≤ ((300 : ℕ) : ℚ) / 2 ^ 49 := by
  obtain ⟨⟨x, y, ex, -, hx, -⟩, -⟩ :=
    C10_marker_near_canvas 300 150 (1 / 4) (by norm_num) (by norm_num) (by norm_num)
      (by norm_num) (by norm_num)
  exact ⟨⟨by norm_num, by norm_num, by norm_num, by norm_num, by norm_num⟩, x, ex, hx⟩

end Lumina
